import Mathlib

/-!
Shallow embedding of the hip-file diff tool's comparator
(`src/api/hip_file_comparator.py`) and proofs about it.

Ordered dictionaries are embedded as association lists (`List (String × NodeData)`),
which captures both the key-value content and the insertion order that
`ordered_dict_insert` / `get_ordered_dict_key_index` manipulate.  Python mutation of a
node or parameter object held inside the dictionaries is embedded as an in-place
functional update of the corresponding association-list entry.  A Python `KeyError`
(possible when a parameter name existing on a source node is missing on the matching
target node) is embedded by making the comparison `Option`-valued, `none` meaning the
exception propagates.
-/

namespace HipDiff

/-- A parameter value as read from the scene file.  The comparator only ever consults
the Python `str` form of a value, embedded here as `PValue.str`; distinct values may
share a string form (for example the integer 1 and the string "1"). -/
inductive PValue where
  | ofString : String → PValue
  | ofInt : Int → PValue
deriving DecidableEq, Repr

def PValue.str : PValue → String
  | .ofString s => s
  | .ofInt n => toString n

/-- Modelled from the spec: `api/param_data.py` is not under `src/`.  Per the spec's
data model a parameter is a named value carrying a tag that is unset at load time
(the loader constructs `ParamData(name, value, False)`). -/
structure ParamData where
  name : String
  value : PValue
  tag : Option String
deriving DecidableEq, Repr

/-- Modelled from the spec: `api/node_data.py` is not under `src/`.  Per the spec's
data model a node value holds the node's name, type, icon, parent path, a tag
(`created`/`deleted`/`edited`/unset) and an ordered mapping of parameter name to
parameter data; the constructor `NodeData(name)` sets only the name, every other
field starting out empty/unset. -/
structure NodeData where
  name : String
  path : String
  type : String
  icon : String
  parent_path : Option String
  tag : Option String
  parms : List (String × ParamData)
deriving DecidableEq, Repr

/-- `NodeData(name)`: the constructor of `NodeData`, modelled from the spec. -/
def NodeData.ofName (n : String) : NodeData :=
  { name := n, path := "", type := "", icon := "", parent_path := none,
    tag := none, parms := [] }

/-- Modelled from the spec: lookup of a parameter by name in a node's parameter
mapping (`NodeData.get_parm_by_name`); `none` embeds a Python `KeyError`. -/
def NodeData.get_parm_by_name (nd : NodeData) (n : String) : Option ParamData :=
  (nd.parms.find? (fun q => q.1 == n)).map (fun q => q.2)

/-- An ordered dictionary keyed by node path, as an association list. -/
abbrev DataDict := List (String × NodeData)

def dictKeys (d : DataDict) : List String := d.map Prod.fst

def hasKey (d : DataDict) (k : String) : Bool := d.any (fun q => q.1 == k)

def lookupNode (d : DataDict) (k : String) : Option NodeData :=
  (d.find? (fun q => q.1 == k)).map (fun q => q.2)

/-- `ordered_dict_insert(d, index, key, value)` from the source: rebuilds the ordered
dict with `(key, value)` placed at position `index` (appending when `index`
exceeds the length, exactly as Python list slicing does). -/
def ordered_dict_insert (d : DataDict) (index : Nat) (key : String) (value : NodeData) :
    DataDict :=
  d.take index ++ (key, value) :: d.drop index

/-- Position of the first occurrence of a key in a list of keys
(`list(...).index(...)` in the source; this embedding is only applied at call
sites where the key is present). -/
def keyIndex : List String → String → Nat
  | [], _ => 0
  | k :: ks, q => if k = q then 0 else keyIndex ks q + 1

/-- `get_ordered_dict_key_index(ordered_dict, target_key)` from the source. -/
def get_ordered_dict_key_index (d : DataDict) (target_key : String) : Nat :=
  keyIndex (dictKeys d) target_key

/-- In-place mutation of the node object stored at key `k`. -/
def updateNode (d : DataDict) (k : String) (f : NodeData → NodeData) : DataDict :=
  d.map (fun q => if q.1 = k then (q.1, f q.2) else q)

def setNodeTag (d : DataDict) (k : String) (t : String) : DataDict :=
  updateNode d k (fun nd => { nd with tag := some t })

def setParmTagInNode (nd : NodeData) (n : String) (t : String) : NodeData :=
  { nd with
    parms := nd.parms.map (fun q => if q.1 = n then (q.1, { q.2 with tag := some t }) else q) }

def setParmTag (d : DataDict) (k : String) (n : String) (t : String) : DataDict :=
  updateNode d k (fun nd => setParmTagInNode nd n t)

namespace HipFileComparator

/-- The inner parameter loop of `compare` for a path `p` present on both sides:
`for parm_name in copy.copy(source_node_data.parms): ...`.  Each parameter whose
source and target string forms differ gets its tag set to `"edited"` on both
sides; a failed parameter lookup (Python `KeyError`) yields `none`. -/
def compareParms (p : String) : List String → DataDict → DataDict → Option (DataDict × DataDict)
  | [], s, t => some (s, t)
  | n :: rest, s, t =>
    match lookupNode s p with
    | none => none
    | some sn =>
      match sn.get_parm_by_name n with
      | none => none
      | some sparm =>
        match lookupNode t p with
        | none => none
        | some tn =>
          match tn.get_parm_by_name n with
          | none => none
          | some tparm =>
            if sparm.value.str ≠ tparm.value.str then
              compareParms p rest (setParmTag s p n "edited") (setParmTag t p n "edited")
            else
              compareParms p rest s t

/-- First loop of `compare` (`# deleted nodes and edited params`): iterates the keys
of `source_data`; a path missing from `target_data` gets a `"deleted"` placeholder
inserted into `target_data` at the path's index in `source_data` and the source node
tagged `"deleted"`; a common path goes through the parameter loop. -/
def processSource : List String → DataDict → DataDict → Option (DataDict × DataDict)
  | [], s, t => some (s, t)
  | p :: rest, s, t =>
    match lookupNode s p with
    | none => none
    | some sn =>
      if hasKey t p then
        match compareParms p (sn.parms.map Prod.fst) s t with
        | none => none
        | some (s1, t1) => processSource rest s1 t1
      else
        let new_data : NodeData :=
          { NodeData.ofName p with
              parent_path := sn.parent_path, tag := some "deleted", name := "", icon := "" }
        let index := get_ordered_dict_key_index s p
        processSource rest (setNodeTag s p "deleted") (ordered_dict_insert t index p new_data)

/-- Second loop of `compare` (`# created nodes`): iterates the keys of the updated
`target_data`; a path missing from `source_data` gets a `"created"` placeholder
inserted into `source_data` at the path's index in `target_data` and the target node
tagged `"created"`. -/
def processTarget : List String → DataDict → DataDict → Option (DataDict × DataDict)
  | [], s, t => some (s, t)
  | p :: rest, s, t =>
    if hasKey s p then processTarget rest s t
    else
      match lookupNode t p with
      | none => none
      | some tn =>
        let new_data : NodeData :=
          { NodeData.ofName p with
              parent_path := tn.parent_path, tag := some "created", name := "", icon := "" }
        let index := get_ordered_dict_key_index t p
        processTarget rest (ordered_dict_insert s index p new_data) (setNodeTag t p "created")

/-- `HipFileComparator.compare`, from the point where `source_data` and `target_data`
have been loaded from the two files: runs the deleted-nodes/edited-params loop over
the source keys, then the created-nodes loop over the keys of the updated target. -/
def compare (source_data target_data : DataDict) : Option (DataDict × DataDict) :=
  match processSource (dictKeys source_data) source_data target_data with
  | none => none
  | some (s1, t1) => processTarget (dictKeys t1) s1 t1

/-- Cost of one run of the first loop, counting one unit per node visited and per
parameter compared, plus the linear traversals of `get_ordered_dict_key_index` and
`ordered_dict_insert` when a placeholder is inserted. -/
def processSourceCost : List String → DataDict → DataDict → Nat
  | [], _, _ => 0
  | p :: rest, s, t =>
    match lookupNode s p with
    | none => 1
    | some sn =>
      if hasKey t p then
        match compareParms p (sn.parms.map Prod.fst) s t with
        | none => 1 + sn.parms.length
        | some (s1, t1) => 1 + sn.parms.length + processSourceCost rest s1 t1
      else
        1 + (get_ordered_dict_key_index s p + 1) + (t.length + 1) +
          processSourceCost rest (setNodeTag s p "deleted")
            (ordered_dict_insert t (get_ordered_dict_key_index s p) p
              { NodeData.ofName p with
                  parent_path := sn.parent_path, tag := some "deleted", name := "", icon := "" })

/-- Cost of one run of the second loop, same counting scheme. -/
def processTargetCost : List String → DataDict → DataDict → Nat
  | [], _, _ => 0
  | p :: rest, s, t =>
    if hasKey s p then 1 + processTargetCost rest s t
    else
      match lookupNode t p with
      | none => 1
      | some tn =>
        1 + (get_ordered_dict_key_index t p + 1) + (s.length + 1) +
          processTargetCost rest
            (ordered_dict_insert s (get_ordered_dict_key_index t p) p
              { NodeData.ofName p with
                  parent_path := tn.parent_path, tag := some "created", name := "", icon := "" })
            (setNodeTag t p "created")

/-- Total running-time cost of `compare` under the counting scheme above. -/
def compareCost (source_data target_data : DataDict) : Nat :=
  processSourceCost (dictKeys source_data) source_data target_data +
    match processSource (dictKeys source_data) source_data target_data with
    | none => 0
    | some (s1, t1) => processTargetCost (dictKeys t1) s1 t1

end HipFileComparator

/-- Key-level skeleton shared by the two loops of `compare`: walk the keys of one
side and insert each key missing from the accumulator at that key's index in
`full` (the side being walked, whose key order stays fixed during the walk). -/
def weaveKeys (full : List String) : List String → List String → List String
  | [], acc => acc
  | p :: rest, acc =>
    if p ∈ acc then weaveKeys full rest acc
    else weaveKeys full rest (acc.take (keyIndex full p) ++ p :: acc.drop (keyIndex full p))

/-- The node-level tag stored for path `p` (`none` when `p` is absent). -/
def nodeTagAt (d : DataDict) (p : String) : Option (Option String) :=
  (lookupNode d p).map (fun nd => nd.tag)

/-- The parameter stored under `(p, n)`. -/
def parmAt (d : DataDict) (p n : String) : Option ParamData :=
  (lookupNode d p).bind (fun nd => nd.get_parm_by_name n)

/-- The parameter-level tag stored under `(p, n)`. -/
def parmTagAt (d : DataDict) (p n : String) : Option (Option String) :=
  (parmAt d p n).map (fun q => q.tag)

/-- Total number of parameters across all nodes of a mapping. -/
def totParms (d : DataDict) : Nat := (d.map (fun q => q.2.parms.length)).sum

/-- The tag values `compare` can ever produce (the spec's
`created`/`deleted`/`edited`/unset). -/
def allowedTag (x : Option String) : Prop :=
  x = none ∨ x = some "created" ∨ x = some "deleted" ∨ x = some "edited"

/-- Node-level tags: `compare` only ever assigns `created`/`deleted` at node level. -/
def allowedNodeTag (x : Option String) : Prop :=
  x = none ∨ x = some "created" ∨ x = some "deleted"

/-- All node- and parameter-level tags of a mapping are unset, as holds for the
mappings `get_hip_data` builds. -/
abbrev tagsUnset (d : DataDict) : Prop :=
  ∀ q ∈ d, q.2.tag = none ∧ ∀ r ∈ q.2.parms, r.2.tag = none

/-- Every node's parameter names are pairwise distinct (true of Python dicts). -/
abbrev parmNamesNodup (d : DataDict) : Prop :=
  ∀ q ∈ d, (q.2.parms.map Prod.fst).Nodup

/-- A key made of `i` letters; used to build arbitrarily large inputs. -/
def akey (i : Nat) : String := String.mk (List.replicate i 'a')

/-- A parameterless node used to build arbitrarily large inputs. -/
def famNode : NodeData := NodeData.ofName ""

/-- A family of source mappings with `n` distinct paths and no parameters. -/
def fam (n : Nat) : DataDict := (List.range n).map (fun i => (akey i, famNode))

/-- Concrete inputs for witnesses: a node `/a` whose parameter `tx` is 1 on the
source side and 2 on the target side, a source-only node `/b`, and a target-only
node `/p`. -/
def exNodeA1 : NodeData :=
  { NodeData.ofName "a" with
      path := "/a", parent_path := some "/",
      parms := [("tx", { name := "tx", value := .ofInt 1, tag := none })] }

def exNodeA2 : NodeData :=
  { NodeData.ofName "a" with
      path := "/a", parent_path := some "/",
      parms := [("tx", { name := "tx", value := .ofInt 2, tag := none })] }

def exNodeB : NodeData :=
  { NodeData.ofName "b" with path := "/b", parent_path := some "/" }

def exNodeP : NodeData :=
  { NodeData.ofName "p" with path := "/p", parent_path := some "/obj" }

def exSrc : DataDict := [("/a", exNodeA1), ("/b", exNodeB)]

def exTgt : DataDict := [("/a", exNodeA2), ("/p", exNodeP)]

/-- The value of `compare exSrc exTgt` (checked against the definition in the
witnesses below): source side of the result. -/
def exS1 : DataDict :=
  [("/a", { name := "a", path := "/a", type := "", icon := "", parent_path := some "/",
            tag := none,
            parms := [("tx", { name := "tx", value := .ofInt 1, tag := some "edited" })] }),
   ("/b", { name := "b", path := "/b", type := "", icon := "", parent_path := some "/",
            tag := some "deleted", parms := [] }),
   ("/p", { name := "", path := "", type := "", icon := "", parent_path := some "/obj",
            tag := some "created", parms := [] })]

/-- The value of `compare exSrc exTgt`: target side of the result. -/
def exT1 : DataDict :=
  [("/a", { name := "a", path := "/a", type := "", icon := "", parent_path := some "/",
            tag := none,
            parms := [("tx", { name := "tx", value := .ofInt 2, tag := some "edited" })] }),
   ("/b", { name := "", path := "", type := "", icon := "", parent_path := some "/",
            tag := some "deleted", parms := [] }),
   ("/p", { name := "p", path := "/p", type := "", icon := "", parent_path := some "/obj",
            tag := some "created", parms := [] })]

/-- The placeholder entry `compare` builds for a node missing on one side: empty
name and icon, the real node's parent path, the given tag, and no parameters
(`NodeData(path)` with `name`/`icon` overwritten by empty strings). -/
def placeholderNode (pp : Option String) (tg : String) : NodeData :=
  { name := "", path := "", type := "", icon := "", parent_path := pp,
    tag := some tg, parms := [] }

/-- Every node-level tag of `d` satisfies `Pn` and every parameter-level tag
satisfies `Pp`. -/
def dictTagsOK (Pn Pp : Option String → Prop) (d : DataDict) : Prop :=
  ∀ q ∈ d, Pn q.2.tag ∧ ∀ r ∈ q.2.parms, Pp r.2.tag

/-- Inputs with equal node sets whose only difference is a parameter value. -/
def exSrcEq : DataDict := [("/a", exNodeA1)]

def exTgtEq : DataDict := [("/a", exNodeA2)]

/-- The value of `compare exSrcEq exTgtEq`: source side. -/
def exSEq : DataDict :=
  [("/a", { name := "a", path := "/a", type := "", icon := "", parent_path := some "/",
            tag := none,
            parms := [("tx", { name := "tx", value := .ofInt 1, tag := some "edited" })] })]

/-- The value of `compare exSrcEq exTgtEq`: target side. -/
def exTEq : DataDict :=
  [("/a", { name := "a", path := "/a", type := "", icon := "", parent_path := some "/",
            tag := none,
            parms := [("tx", { name := "tx", value := .ofInt 2, tag := some "edited" })] })]

/-- A concrete filesystem for witnesses: exactly two files exist. -/
def exFS : String → Bool := fun p => p == "/scene.hipnc" || p == "/other.hip"

def SUPPORTED_FILE_FORMATS : List String := ["hip", "hipnc"]

/-- Index of the last occurrence of `c` in `cs`, `-1` when absent
(Python `str.rfind`). -/
def lastIndexOfChar (cs : List Char) (c : Char) : Int :=
  cs.enum.foldl (fun acc q => if q.2 = c then (q.1 : Int) else acc) (-1)

/-- The extension part of `os.path.splitext(path)` on a POSIX path: the suffix from
the last dot, provided that dot lies after the last path separator and the basename
has at least one non-dot character before it (so dotfiles have no extension). -/
def splitextExtension (p : String) : String :=
  let cs := p.toList
  let sepIndex := lastIndexOfChar cs '/'
  let dotIndex := lastIndexOfChar cs '.'
  if sepIndex < dotIndex then
    let nameStart := (sepIndex + 1).toNat
    let between := (cs.drop nameStart).take (dotIndex.toNat - nameStart)
    if between.any (fun c => c ≠ '.') then String.mk (cs.drop dotIndex.toNat) else ""
  else ""

/-- `HipFileComparator.check_file_path`: raises (returns `.error`) when the path does
not exist on disk, or when the extension with its leading dot stripped is not in
`SUPPORTED_FILE_FORMATS`.  The filesystem is abstracted by the predicate
`osPathExists`. -/
def check_file_path (osPathExists : String → Bool) (path : String) : Except String Unit :=
  if ¬ osPathExists path then
    .error "Incorrect source path specified, such file don\x27t exists."
  else
    let extension := splitextExtension path
    if ¬ SUPPORTED_FILE_FORMATS.contains (extension.drop 1) then
      .error "Incorrect source file specified, only .hip files supported."
    else .ok ()

structure HipFileComparator where
  source_hip_file : String
  target_hip_file : String
deriving DecidableEq, Repr

/-- `HipFileComparator.__init__`: checks both paths before any attribute assignment;
on failure no comparator state exists (the `.error` branch carries no structure). -/
def HipFileComparator.init (osPathExists : String → Bool)
    (source_hip_file target_hip_file : String) : Except String HipFileComparator :=
  match check_file_path osPathExists source_hip_file with
  | .error e => .error e
  | .ok _ =>
    match check_file_path osPathExists target_hip_file with
    | .error e => .error e
    | .ok _ => .ok { source_hip_file := source_hip_file, target_hip_file := target_hip_file }

/-- The two `ValueError` guards at the top of `compare`. -/
def HipFileComparator.compareGuards (c : HipFileComparator) : Except String Unit :=
  if c.source_hip_file = "" then .error "Error, no source file specified!"
  else if c.target_hip_file = "" then .error "Error, no target file specified!"
  else .ok ()

/-! ### Basic lemmas about the ordered-dictionary embedding -/

theorem dictKeys_append (d1 d2 : DataDict) : dictKeys (d1 ++ d2) = dictKeys d1 ++ dictKeys d2 :=
  List.map_append _ _ _

theorem hasKey_iff {d : DataDict} {k : String} : hasKey d k = true ↔ k ∈ dictKeys d := by
  simp [hasKey, List.any_eq_true, beq_iff_eq, dictKeys, List.mem_map]

theorem lookupNode_isSome_iff {d : DataDict} {k : String} :
    (lookupNode d k).isSome = true ↔ k ∈ dictKeys d := by
  simp [lookupNode, List.find?_isSome, beq_iff_eq, dictKeys, List.mem_map]

theorem lookupNode_mem {d : DataDict} {k : String} {nd : NodeData}
    (h : lookupNode d k = some nd) : (k, nd) ∈ d := by
  rw [lookupNode, Option.map_eq_some'] at h
  obtain ⟨q, hf, hq2⟩ := h
  have h1 : q.1 = k := by simpa using List.find?_some hf
  have h2 := List.mem_of_find?_eq_some hf
  have hq : q = (k, nd) := by
    cases q; simp only [Prod.mk.injEq]; exact ⟨h1, hq2⟩
  rwa [hq] at h2

theorem lookupNode_eq_some_of_mem {d : DataDict} {k : String} (h : k ∈ dictKeys d) :
    ∃ nd, lookupNode d k = some nd := by
  have := lookupNode_isSome_iff.mpr h
  cases hl : lookupNode d k with
  | none => rw [hl] at this; simp at this
  | some nd => exact ⟨nd, rfl⟩

theorem lookupNode_eq_none_of_not_mem {d : DataDict} {k : String} (h : k ∉ dictKeys d) :
    lookupNode d k = none := by
  cases hl : lookupNode d k with
  | none => rfl
  | some nd => exact absurd (lookupNode_isSome_iff.mp (by simp [hl])) h

theorem dictKeys_updateNode (d : DataDict) (k : String) (f : NodeData → NodeData) :
    dictKeys (updateNode d k f) = dictKeys d := by
  unfold dictKeys updateNode
  rw [List.map_map]
  apply List.map_congr_left
  intro x _
  by_cases h : x.1 = k <;> simp [h]

theorem lookupNode_updateNode_self (d : DataDict) (k : String) (f : NodeData → NodeData) :
    lookupNode (updateNode d k f) k = (lookupNode d k).map f := by
  induction d with
  | nil => rfl
  | cons e d ih =>
      by_cases h : e.1 = k
      · simp [lookupNode, updateNode, h]
      · simp only [lookupNode, updateNode, List.map_cons, if_neg h] at ih ⊢
        rw [List.find?_cons_of_neg _ (by simpa using h), List.find?_cons_of_neg _ (by simpa using h)]
        exact ih

theorem lookupNode_updateNode_ne (d : DataDict) {k q : String} (f : NodeData → NodeData)
    (h : q ≠ k) : lookupNode (updateNode d k f) q = lookupNode d q := by
  induction d with
  | nil => rfl
  | cons e d ih =>
      by_cases he : e.1 = k
      · have hne : ¬ (e.1 == q) = true := by
          simp only [beq_iff_eq]
          rw [he]
          exact fun hh => h hh.symm
        simp only [lookupNode, updateNode, List.map_cons, if_pos he] at ih ⊢
        rw [List.find?_cons_of_neg (p := fun (r : String × NodeData) => r.1 == q) _ (by simpa [he] using hne)]
        rw [List.find?_cons_of_neg (p := fun (r : String × NodeData) => r.1 == q) (a := e) _ hne]
        exact ih
      · by_cases hq : e.1 = q
        · simp only [lookupNode, updateNode, List.map_cons, if_neg he]
          rw [List.find?_cons_of_pos (p := fun (r : String × NodeData) => r.1 == q) (a := e) _ (by simpa using hq)]
          rw [List.find?_cons_of_pos (p := fun (r : String × NodeData) => r.1 == q) (a := e) _ (by simpa using hq)]
        · simp only [lookupNode, updateNode, List.map_cons, if_neg he] at ih ⊢
          rw [List.find?_cons_of_neg (p := fun (r : String × NodeData) => r.1 == q) _ (by simpa using hq)]
          rw [List.find?_cons_of_neg (p := fun (r : String × NodeData) => r.1 == q) (a := e) _ (by simpa using hq)]
          exact ih

/-! ### Lemmas about `keyIndex` and positional insertion -/

theorem keyIndex_le_length (l : List String) (q : String) : keyIndex l q ≤ l.length := by
  induction l with
  | nil => simp [keyIndex]
  | cons a l ih =>
      by_cases h : a = q
      · simp [keyIndex, h]
      · simp only [keyIndex, if_neg h, List.length_cons]
        omega

theorem keyIndex_lt_length_iff {l : List String} {q : String} :
    keyIndex l q < l.length ↔ q ∈ l := by
  induction l with
  | nil => simp [keyIndex]
  | cons a l ih =>
      by_cases h : a = q
      · simp [keyIndex, h]
      · simp only [keyIndex, if_neg h, List.length_cons, List.mem_cons]
        rw [Nat.add_lt_add_iff_right, ih]
        simp [Ne.symm h]

theorem keyIndex_append_of_not_mem {l1 : List String} {q : String} (l2 : List String)
    (h : q ∉ l1) : keyIndex (l1 ++ l2) q = l1.length + keyIndex l2 q := by
  induction l1 with
  | nil => simp
  | cons a l1 ih =>
      have ha : a ≠ q := fun hh => h (by simp [hh])
      simp only [List.cons_append, keyIndex, if_neg ha, List.length_cons, List.append_eq]
      rw [ih (fun hh => h (List.mem_cons_of_mem _ hh))]
      omega

theorem keyIndex_append_of_mem {l1 : List String} {q : String} (l2 : List String)
    (h : q ∈ l1) : keyIndex (l1 ++ l2) q = keyIndex l1 q := by
  induction l1 with
  | nil => simp at h
  | cons a l1 ih =>
      by_cases ha : a = q
      · simp [keyIndex, ha]
      · have : q ∈ l1 := by
          rcases List.mem_cons.mp h with h1 | h1
          · exact absurd h1.symm ha
          · exact h1
        simp only [List.cons_append, keyIndex, if_neg ha, List.append_eq]
        rw [ih this]

theorem keyIndex_take {l : List String} {q : String} {j : Nat} (h : keyIndex l q < j) :
    keyIndex (l.take j) q = keyIndex l q := by
  induction l generalizing j with
  | nil => simp [keyIndex]
  | cons a l ih =>
      cases j with
      | zero => omega
      | succ j =>
          by_cases ha : a = q
          · simp [List.take_succ_cons, keyIndex, ha]
          · simp only [keyIndex, if_neg ha] at h
            simp only [List.take_succ_cons, keyIndex, if_neg ha]
            rw [ih (by omega)]

theorem mem_take_of_keyIndex_lt {l : List String} {q : String} {j : Nat}
    (h1 : q ∈ l) (h2 : keyIndex l q < j) : q ∈ l.take j := by
  rw [← keyIndex_lt_length_iff, keyIndex_take h2, List.length_take]
  exact lt_min h2 (keyIndex_lt_length_iff.mpr h1)

theorem keyIndex_insertAt_of_lt {l : List String} {q k : String} {j : Nat}
    (h1 : q ∈ l) (h2 : keyIndex l q < j) :
    keyIndex (l.take j ++ k :: l.drop j) q = keyIndex l q := by
  rw [keyIndex_append_of_mem _ (mem_take_of_keyIndex_lt h1 h2), keyIndex_take h2]

theorem keyIndex_insertAt_self {l : List String} {k : String} {j : Nat}
    (hk : k ∉ l) (hj : j ≤ l.length) :
    keyIndex (l.take j ++ k :: l.drop j) k = j := by
  have hnk : k ∉ l.take j := fun h => hk (List.take_subset _ _ h)
  rw [keyIndex_append_of_not_mem _ hnk]
  have h0 : keyIndex (k :: l.drop j) k = 0 := by simp [keyIndex]
  rw [h0, List.length_take]
  omega

theorem mem_insertAt_iff {l : List String} {q k : String} {j : Nat} :
    q ∈ l.take j ++ k :: l.drop j ↔ q = k ∨ q ∈ l := by
  constructor
  · intro h
    rcases List.mem_append.mp h with h | h
    · exact Or.inr (List.take_subset _ _ h)
    · rcases List.mem_cons.mp h with h | h
      · exact Or.inl h
      · exact Or.inr (List.drop_subset _ _ h)
  · intro h
    rcases h with h | h
    · exact List.mem_append.mpr (Or.inr (List.mem_cons.mpr (Or.inl h)))
    · rw [← List.take_append_drop j l] at h
      rcases List.mem_append.mp h with h | h
      · exact List.mem_append.mpr (Or.inl h)
      · exact List.mem_append.mpr (Or.inr (List.mem_cons.mpr (Or.inr h)))

theorem insertAt_perm_cons (l : List String) (k : String) (j : Nat) :
    (l.take j ++ k :: l.drop j).Perm (k :: l) := by
  have h1 : (l.take j ++ k :: l.drop j).Perm (k :: (l.take j ++ l.drop j)) :=
    List.perm_middle
  rwa [List.take_append_drop] at h1

theorem dictKeys_insert (d : DataDict) (i : Nat) (k : String) (v : NodeData) :
    dictKeys (ordered_dict_insert d i k v) =
      (dictKeys d).take i ++ k :: (dictKeys d).drop i := by
  simp [ordered_dict_insert, dictKeys, List.map_append, List.map_take, List.map_drop]

theorem lookupNode_append_middle {l1 l2 : List (String × NodeData)} {k q : String}
    {v : NodeData} (h : q ≠ k) :
    lookupNode (l1 ++ (k, v) :: l2) q = lookupNode (l1 ++ l2) q := by
  unfold lookupNode
  rw [List.find?_append, List.find?_append]
  congr 1
  rw [List.find?_cons_of_neg (p := fun (r : String × NodeData) => r.1 == q) _
    (by simpa using fun hh => h hh.symm)]

theorem lookupNode_insert_ne (d : DataDict) (i : Nat) {k q : String} (v : NodeData)
    (h : q ≠ k) : lookupNode (ordered_dict_insert d i k v) q = lookupNode d q := by
  unfold ordered_dict_insert
  rw [lookupNode_append_middle h, List.take_append_drop]

theorem lookupNode_insert_self (d : DataDict) (i : Nat) {k : String} (v : NodeData)
    (h : k ∉ dictKeys d) : lookupNode (ordered_dict_insert d i k v) k = some v := by
  unfold ordered_dict_insert lookupNode
  rw [List.find?_append]
  have h1 : (d.take i).find? (fun (r : String × NodeData) => r.1 == k) = none := by
    rw [List.find?_eq_none]
    intro x hx
    simp only [beq_iff_eq]
    intro hk
    exact h (hk ▸ List.mem_map_of_mem Prod.fst (List.take_subset _ _ hx))
  rw [h1]
  rw [List.find?_cons_of_pos (p := fun (r : String × NodeData) => r.1 == k) _ (by simp)]
  rfl


/-! ### Key-set behaviour of the two loops -/

theorem compareParms_keys {p : String} :
    ∀ {ns : List String} {s t s' t' : DataDict},
      HipFileComparator.compareParms p ns s t = some (s', t') →
      dictKeys s' = dictKeys s ∧ dictKeys t' = dictKeys t := by
  intro ns
  induction ns with
  | nil =>
      intro s t s' t' h
      simp only [HipFileComparator.compareParms] at h
      cases h
      exact ⟨rfl, rfl⟩
  | cons n rest ih =>
      intro s t s' t' h
      simp only [HipFileComparator.compareParms] at h
      split at h
      · simp at h
      · split at h
        · simp at h
        · split at h
          · simp at h
          · split at h
            · simp at h
            · split at h
              · obtain ⟨h1, h2⟩ := ih h
                refine ⟨?_, ?_⟩
                · rw [h1, setParmTag, dictKeys_updateNode]
                · rw [h2, setParmTag, dictKeys_updateNode]
              · exact ih h

theorem processSource_keys {ks : List String} :
    ∀ {s t s' t' : DataDict},
      HipFileComparator.processSource ks s t = some (s', t') →
      dictKeys s' = dictKeys s ∧
        ∀ q, q ∈ dictKeys t' ↔ q ∈ dictKeys t ∨ q ∈ ks := by
  induction ks with
  | nil =>
      intro s t s' t' h
      simp only [HipFileComparator.processSource] at h
      cases h
      exact ⟨rfl, fun q => by simp⟩
  | cons p rest ih =>
      intro s t s' t' h
      simp only [HipFileComparator.processSource] at h
      split at h
      · simp at h
      · rename_i sn hsn
        split at h
        · rename_i hmem
          split at h
          · simp at h
          · rename_i s1t1 hcp
            obtain ⟨hk1, hk2⟩ := compareParms_keys hcp
            obtain ⟨ih1, ih2⟩ := ih h
            refine ⟨by rw [ih1, hk1], fun q => ?_⟩
            rw [ih2 q, hk2]
            have hp : p ∈ dictKeys t := hasKey_iff.mp hmem
            constructor
            · rintro (h1 | h1)
              · exact Or.inl h1
              · exact Or.inr (List.mem_cons_of_mem _ h1)
            · rintro (h1 | h1)
              · exact Or.inl h1
              · rcases List.mem_cons.mp h1 with h1 | h1
                · exact Or.inl (h1 ▸ hp)
                · exact Or.inr h1
        · rename_i hmem
          obtain ⟨ih1, ih2⟩ := ih h
          refine ⟨by rw [ih1, setNodeTag, dictKeys_updateNode], fun q => ?_⟩
          rw [ih2 q, dictKeys_insert, mem_insertAt_iff]
          constructor
          · rintro ((h1 | h1) | h1)
            · exact Or.inr (List.mem_cons.mpr (Or.inl h1))
            · exact Or.inl h1
            · exact Or.inr (List.mem_cons_of_mem _ h1)
          · rintro (h1 | h1)
            · exact Or.inl (Or.inr h1)
            · rcases List.mem_cons.mp h1 with h1 | h1
              · exact Or.inl (Or.inl h1)
              · exact Or.inr h1

theorem processTarget_keys {ks : List String} :
    ∀ {s t s' t' : DataDict},
      HipFileComparator.processTarget ks s t = some (s', t') →
      dictKeys t' = dictKeys t ∧
        ∀ q, q ∈ dictKeys s' ↔ q ∈ dictKeys s ∨ q ∈ ks := by
  induction ks with
  | nil =>
      intro s t s' t' h
      simp only [HipFileComparator.processTarget] at h
      cases h
      exact ⟨rfl, fun q => by simp⟩
  | cons p rest ih =>
      intro s t s' t' h
      simp only [HipFileComparator.processTarget] at h
      split at h
      · rename_i hmem
        obtain ⟨ih1, ih2⟩ := ih h
        refine ⟨ih1, fun q => ?_⟩
        rw [ih2 q]
        have hp : p ∈ dictKeys s := hasKey_iff.mp hmem
        constructor
        · rintro (h1 | h1)
          · exact Or.inl h1
          · exact Or.inr (List.mem_cons_of_mem _ h1)
        · rintro (h1 | h1)
          · exact Or.inl h1
          · rcases List.mem_cons.mp h1 with h1 | h1
            · exact Or.inl (h1 ▸ hp)
            · exact Or.inr h1
      · split at h
        · simp at h
        · rename_i tn htn
          obtain ⟨ih1, ih2⟩ := ih h
          refine ⟨by rw [ih1, setNodeTag, dictKeys_updateNode], fun q => ?_⟩
          rw [ih2 q, dictKeys_insert, mem_insertAt_iff]
          constructor
          · rintro ((h1 | h1) | h1)
            · exact Or.inr (List.mem_cons.mpr (Or.inl h1))
            · exact Or.inl h1
            · exact Or.inr (List.mem_cons_of_mem _ h1)
          · rintro (h1 | h1)
            · exact Or.inl (Or.inr h1)
            · rcases List.mem_cons.mp h1 with h1 | h1
              · exact Or.inl (Or.inl h1)
              · exact Or.inr h1


/-! ### The claims -/

/-- C1: for every pair of inputs, after `compare` succeeds the key sets of the two
resulting mappings agree and equal the union of the node paths read from the source
file and those read from the target file. -/
theorem compare_keys_union {src tgt s' t' : DataDict}
    (h : HipFileComparator.compare src tgt = some (s', t')) :
    ∀ q, (q ∈ dictKeys s' ↔ q ∈ dictKeys src ∨ q ∈ dictKeys tgt) ∧
         (q ∈ dictKeys t' ↔ q ∈ dictKeys src ∨ q ∈ dictKeys tgt) := by
  simp only [HipFileComparator.compare] at h
  split at h
  · simp at h
  · rename_i s1t1 hps
    obtain ⟨hk1, hk2⟩ := processSource_keys hps
    obtain ⟨hk3, hk4⟩ := processTarget_keys h
    intro q
    constructor
    · rw [hk4 q, hk1, hk2 q]
      tauto
    · rw [hk3, hk2 q]
      tauto

/-- Witness for C1 at the concrete inputs `exSrc`, `exTgt`. -/
theorem compare_keys_union_witness :
    ("/b" ∈ dictKeys exT1 ↔ "/b" ∈ dictKeys exSrc ∨ "/b" ∈ dictKeys exTgt) ∧
    ("/p" ∈ dictKeys exS1 ↔ "/p" ∈ dictKeys exSrc ∨ "/p" ∈ dictKeys exTgt) :=
  ⟨(compare_keys_union (show HipFileComparator.compare exSrc exTgt = some (exS1, exT1)
      from by rfl) "/b").2,
   (compare_keys_union (show HipFileComparator.compare exSrc exTgt = some (exS1, exT1)
      from by rfl) "/p").1⟩


theorem check_file_path_ok_iff {ex : String → Bool} {p : String} :
    check_file_path ex p = Except.ok () ↔
      (ex p = true ∧ (splitextExtension p).drop 1 ∈ SUPPORTED_FILE_FORMATS) := by
  unfold check_file_path
  by_cases h1 : ex p = true
  · by_cases h2 : (splitextExtension p).drop 1 ∈ SUPPORTED_FILE_FORMATS
    · simp [h1, h2]
    · simp [h1, h2]
  · simp [h1]

theorem check_file_path_error_iff {ex : String → Bool} {p : String} :
    (∃ e, check_file_path ex p = Except.error e) ↔
      ¬ (ex p = true ∧ (splitextExtension p).drop 1 ∈ SUPPORTED_FILE_FORMATS) := by
  rw [← check_file_path_ok_iff]
  cases h : check_file_path ex p with
  | error e => simp [h]
  | ok u => cases u; simp [h]

/-- C8: `HipFileComparator.__init__` raises exactly when one of the two paths does
not exist (on the abstracted filesystem `ex`) or its `os.path.splitext` extension,
leading dot stripped, is not `hip` or `hipnc`; `hipnc` is in the supported list even
though the error message mentions only `.hip`.  In the embedding a raising
constructor returns `Except.error` carrying no comparator state, so no attribute is
set when it raises. -/
theorem init_raises_iff (ex : String → Bool) (s t : String) :
    ((∃ e, HipFileComparator.init ex s t = Except.error e) ↔
      (ex s = false ∨ (splitextExtension s).drop 1 ∉ SUPPORTED_FILE_FORMATS ∨
       ex t = false ∨ (splitextExtension t).drop 1 ∉ SUPPORTED_FILE_FORMATS)) ∧
    "hipnc" ∈ SUPPORTED_FILE_FORMATS := by
  refine ⟨?_, by decide⟩
  unfold HipFileComparator.init
  cases hc1 : check_file_path ex s with
  | error e =>
      have h1 := check_file_path_error_iff.mp ⟨e, hc1⟩
      rw [not_and_or, Bool.not_eq_true] at h1
      simp only [hc1]
      constructor
      · intro _
        rcases h1 with h1 | h1
        · exact Or.inl h1
        · exact Or.inr (Or.inl h1)
      · intro _
        exact ⟨e, rfl⟩
  | ok u =>
      cases u
      have h1 := check_file_path_ok_iff.mp hc1
      cases hc2 : check_file_path ex t with
      | error e =>
          have h2 := check_file_path_error_iff.mp ⟨e, hc2⟩
          rw [not_and_or, Bool.not_eq_true] at h2
          simp only [hc1, hc2]
          constructor
          · intro _
            rcases h2 with h2 | h2
            · exact Or.inr (Or.inr (Or.inl h2))
            · exact Or.inr (Or.inr (Or.inr h2))
          · intro _
            exact ⟨e, rfl⟩
      | ok u2 =>
          cases u2
          have h2 := check_file_path_ok_iff.mp hc2
          simp only [hc1, hc2]
          constructor
          · rintro ⟨e, he⟩
            cases he
          · rintro (h3 | h3 | h3 | h3)
            · rw [h1.1] at h3; cases h3
            · exact absurd h1.2 h3
            · rw [h2.1] at h3; cases h3
            · exact absurd h2.2 h3

/-- Witness for C8: with filesystem `exFS`, a missing path raises, and the existing
`.hipnc` file raises nothing. -/
theorem init_raises_iff_witness :
    (∃ e, HipFileComparator.init exFS "/scene.hipnc" "/missing.hip" = Except.error e) ∧
    ¬ (∃ e, HipFileComparator.init exFS "/scene.hipnc" "/other.hip" = Except.error e) :=
  ⟨(init_raises_iff exFS "/scene.hipnc" "/missing.hip").1.mpr (by decide),
   fun h => (by decide :
      ¬ (exFS "/scene.hipnc" = false ∨
         (splitextExtension "/scene.hipnc").drop 1 ∉ SUPPORTED_FILE_FORMATS ∨
         exFS "/other.hip" = false ∨
         (splitextExtension "/other.hip").drop 1 ∉ SUPPORTED_FILE_FORMATS))
     ((init_raises_iff exFS "/scene.hipnc" "/other.hip").1.mp h)⟩

/-- C9: for a comparator whose constructor returned successfully, the two
`ValueError` guards at the top of `compare` are unreachable: `os.path.exists` of the
empty string is false, so a successfully checked path is never empty. -/
theorem compare_guards_unreachable (ex : String → Bool) (s t : String)
    (c : HipFileComparator) (hempty : ex "" = false)
    (h : HipFileComparator.init ex s t = Except.ok c) :
    HipFileComparator.compareGuards c = Except.ok () := by
  unfold HipFileComparator.init at h
  cases hc1 : check_file_path ex s with
  | error e => rw [hc1] at h; cases h
  | ok u =>
      cases u
      rw [hc1] at h
      cases hc2 : check_file_path ex t with
      | error e => rw [hc2] at h; cases h
      | ok u2 =>
          cases u2
          rw [hc2] at h
          cases h
          have h1 := (check_file_path_ok_iff.mp hc1).1
          have h2 := (check_file_path_ok_iff.mp hc2).1
          have hs : s ≠ "" := fun he => by rw [he, hempty] at h1; cases h1
          have ht : t ≠ "" := fun he => by rw [he, hempty] at h2; cases h2
          unfold HipFileComparator.compareGuards
          rw [if_neg hs, if_neg ht]

/-- Witness for C9 at the concrete filesystem `exFS`. -/
theorem compare_guards_unreachable_witness :
    HipFileComparator.compareGuards
      { source_hip_file := "/other.hip", target_hip_file := "/scene.hipnc" } =
      Except.ok () :=
  compare_guards_unreachable exFS "/other.hip" "/scene.hipnc" _ (by decide) (by rfl)


/-! ### The range of tags `compare` can assign -/

theorem dictTagsOK_setNodeTag {Pn Pp : Option String → Prop} {d : DataDict}
    {k tg : String} (hd : dictTagsOK Pn Pp d) (htg : Pn (some tg)) :
    dictTagsOK Pn Pp (setNodeTag d k tg) := by
  intro q hq
  rw [setNodeTag, updateNode] at hq
  obtain ⟨q0, hq0, rfl⟩ := List.mem_map.mp hq
  by_cases h : q0.1 = k
  · simp only [if_pos h]
    exact ⟨htg, (hd q0 hq0).2⟩
  · simp only [if_neg h]
    exact hd q0 hq0

theorem dictTagsOK_setParmTag {Pn Pp : Option String → Prop} {d : DataDict}
    {k n tg : String} (hd : dictTagsOK Pn Pp d) (htg : Pp (some tg)) :
    dictTagsOK Pn Pp (setParmTag d k n tg) := by
  intro q hq
  rw [setParmTag, updateNode] at hq
  obtain ⟨q0, hq0, rfl⟩ := List.mem_map.mp hq
  by_cases h : q0.1 = k
  · simp only [if_pos h]
    refine ⟨(hd q0 hq0).1, ?_⟩
    intro r hr
    simp only [setParmTagInNode] at hr
    obtain ⟨r0, hr0, rfl⟩ := List.mem_map.mp hr
    by_cases hn : r0.1 = n
    · simp only [if_pos hn]
      exact htg
    · simp only [if_neg hn]
      exact (hd q0 hq0).2 r0 hr0
  · simp only [if_neg h]
    exact hd q0 hq0

theorem dictTagsOK_insert {Pn Pp : Option String → Prop} {d : DataDict} {i : Nat}
    {k : String} {v : NodeData} (hd : dictTagsOK Pn Pp d) (hv1 : Pn v.tag)
    (hv2 : ∀ r ∈ v.parms, Pp r.2.tag) :
    dictTagsOK Pn Pp (ordered_dict_insert d i k v) := by
  intro q hq
  rw [ordered_dict_insert] at hq
  rcases List.mem_append.mp hq with h | h
  · exact hd q (List.take_subset _ _ h)
  · rcases List.mem_cons.mp h with h | h
    · rw [h]
      exact ⟨hv1, hv2⟩
    · exact hd q (List.drop_subset _ _ h)

theorem compareParms_tagsOK {Pn Pp : Option String → Prop} {p : String}
    (hedit : Pp (some "edited")) :
    ∀ {ns : List String} {s t s' t' : DataDict},
      HipFileComparator.compareParms p ns s t = some (s', t') →
      dictTagsOK Pn Pp s → dictTagsOK Pn Pp t →
      dictTagsOK Pn Pp s' ∧ dictTagsOK Pn Pp t' := by
  intro ns
  induction ns with
  | nil =>
      intro s t s' t' h hs ht
      simp only [HipFileComparator.compareParms] at h
      cases h
      exact ⟨hs, ht⟩
  | cons n rest ih =>
      intro s t s' t' h hs ht
      simp only [HipFileComparator.compareParms] at h
      split at h
      · simp at h
      · split at h
        · simp at h
        · split at h
          · simp at h
          · split at h
            · simp at h
            · split at h
              · exact ih h (dictTagsOK_setParmTag hs hedit) (dictTagsOK_setParmTag ht hedit)
              · exact ih h hs ht

theorem processSource_tagsOK {Pn Pp : Option String → Prop}
    (hdel : Pn (some "deleted")) (hedit : Pp (some "edited")) :
    ∀ {ks : List String} {s t s' t' : DataDict},
      HipFileComparator.processSource ks s t = some (s', t') →
      dictTagsOK Pn Pp s → dictTagsOK Pn Pp t →
      dictTagsOK Pn Pp s' ∧ dictTagsOK Pn Pp t' := by
  intro ks
  induction ks with
  | nil =>
      intro s t s' t' h hs ht
      simp only [HipFileComparator.processSource] at h
      cases h
      exact ⟨hs, ht⟩
  | cons q rest ih =>
      intro s t s' t' h hs ht
      simp only [HipFileComparator.processSource] at h
      split at h
      · simp at h
      · split at h
        · split at h
          · simp at h
          · rename_i s1t1 hcp
            obtain ⟨h1, h2⟩ := compareParms_tagsOK hedit hcp hs ht
            exact ih h h1 h2
        · exact ih h (dictTagsOK_setNodeTag hs hdel)
            (dictTagsOK_insert ht hdel (by intro r hr; cases hr))

theorem processTarget_tagsOK {Pn Pp : Option String → Prop}
    (hcre : Pn (some "created")) :
    ∀ {ks : List String} {s t s' t' : DataDict},
      HipFileComparator.processTarget ks s t = some (s', t') →
      dictTagsOK Pn Pp s → dictTagsOK Pn Pp t →
      dictTagsOK Pn Pp s' ∧ dictTagsOK Pn Pp t' := by
  intro ks
  induction ks with
  | nil =>
      intro s t s' t' h hs ht
      simp only [HipFileComparator.processTarget] at h
      cases h
      exact ⟨hs, ht⟩
  | cons q rest ih =>
      intro s t s' t' h hs ht
      simp only [HipFileComparator.processTarget] at h
      split at h
      · exact ih h hs ht
      · split at h
        · simp at h
        · exact ih h (dictTagsOK_insert hs hcre (by intro r hr; cases hr))
            (dictTagsOK_setNodeTag ht hcre)

theorem compare_tagsOK (Pn Pp : Option String → Prop)
    (hcre : Pn (some "created")) (hdel : Pn (some "deleted")) (hedit : Pp (some "edited")) :
    ∀ {src tgt s' t' : DataDict},
      HipFileComparator.compare src tgt = some (s', t') →
      dictTagsOK Pn Pp src → dictTagsOK Pn Pp tgt →
      dictTagsOK Pn Pp s' ∧ dictTagsOK Pn Pp t' := by
  intro src tgt s' t' h hs ht
  simp only [HipFileComparator.compare] at h
  split at h
  · simp at h
  · rename_i s1t1 hps
    obtain ⟨h1, h2⟩ := processSource_tagsOK hdel hedit hps hs ht
    exact processTarget_tagsOK hcre h h1 h2


theorem nodeTagAt_ok {Pn Pp : Option String → Prop} {d : DataDict} {p : String}
    {x : Option String} (hd : dictTagsOK Pn Pp d) (h : nodeTagAt d p = some x) : Pn x := by
  rw [nodeTagAt, Option.map_eq_some'] at h
  obtain ⟨nd, hnd, hx⟩ := h
  exact hx ▸ (hd (p, nd) (lookupNode_mem hnd)).1

theorem parmTagAt_ok {Pn Pp : Option String → Prop} {d : DataDict} {p n : String}
    {x : Option String} (hd : dictTagsOK Pn Pp d) (h : parmTagAt d p n = some x) : Pp x := by
  rw [parmTagAt, Option.map_eq_some'] at h
  obtain ⟨pd, hpd, hx⟩ := h
  rw [parmAt, Option.bind_eq_some] at hpd
  obtain ⟨nd, hnd, hg⟩ := hpd
  rw [NodeData.get_parm_by_name, Option.map_eq_some'] at hg
  obtain ⟨r, hr, hr2⟩ := hg
  have hrm := List.mem_of_find?_eq_some hr
  have := (hd (p, nd) (lookupNode_mem hnd)).2 r hrm
  rw [hr2, hx] at this
  exact this

theorem tagsUnset_dictTagsOK {Pn Pp : Option String → Prop} {d : DataDict}
    (hd : tagsUnset d) (h1 : Pn none) (h2 : Pp none) : dictTagsOK Pn Pp d := by
  intro q hq
  exact ⟨(hd q hq).1 ▸ h1, fun r hr => (hd q hq).2 r hr ▸ h2⟩

/-- C7: after `compare` on freshly loaded data (all tags unset), every node-level
and parameter-level tag of both result mappings is `created`, `deleted`, `edited`
or unset; no other value — in particular no `unchanged` — is ever assigned. -/
theorem compare_tags_in_range {src tgt s' t' : DataDict}
    (h : HipFileComparator.compare src tgt = some (s', t'))
    (hs : tagsUnset src) (ht : tagsUnset tgt) :
    (∀ p x, nodeTagAt s' p = some x → allowedTag x) ∧
    (∀ p n x, parmTagAt s' p n = some x → allowedTag x) ∧
    (∀ p x, nodeTagAt t' p = some x → allowedTag x) ∧
    (∀ p n x, parmTagAt t' p n = some x → allowedTag x) := by
  have h0 : allowedTag none := Or.inl rfl
  obtain ⟨h1, h2⟩ := compare_tagsOK allowedTag allowedTag
    (Or.inr (Or.inl rfl)) (Or.inr (Or.inr (Or.inl rfl))) (Or.inr (Or.inr (Or.inr rfl))) h
    (tagsUnset_dictTagsOK hs h0 h0) (tagsUnset_dictTagsOK ht h0 h0)
  exact ⟨fun p x hx => nodeTagAt_ok h1 hx, fun p n x hx => parmTagAt_ok h1 hx,
    fun p x hx => nodeTagAt_ok h2 hx, fun p n x hx => parmTagAt_ok h2 hx⟩

/-- Witness for C7 at the concrete inputs `exSrc`, `exTgt`. -/
theorem compare_tags_in_range_witness :
    tagsUnset exSrc ∧ allowedTag (some "created") ∧ allowedTag (some "edited") :=
  ⟨by decide,
   (compare_tags_in_range (show HipFileComparator.compare exSrc exTgt = some (exS1, exT1)
       from by rfl) (by decide) (by decide)).2.2.1 "/p" (some "created") (by rfl),
   (compare_tags_in_range (show HipFileComparator.compare exSrc exTgt = some (exS1, exT1)
       from by rfl) (by decide) (by decide)).2.1 "/a" "tx" (some "edited") (by rfl)⟩

/-- C4 is refuted: `compare` never assigns an `edited` tag at node level, even when
the two inputs have equal node sets and a parameter value differs.  This proves the
negation of the claim over freshly loaded inputs. -/
theorem node_level_edited_counterexample :
    ¬ ∃ src tgt s' t', HipFileComparator.compare src tgt = some (s', t') ∧
        tagsUnset src ∧ tagsUnset tgt ∧ dictKeys src = dictKeys tgt ∧
        ∃ p x, (nodeTagAt s' p = some x ∨ nodeTagAt t' p = some x) ∧ x = some "edited" := by
  rintro ⟨src, tgt, s', t', h, hs, ht, hkeys, p, x, hx, rfl⟩
  have h0 : allowedNodeTag none := Or.inl rfl
  obtain ⟨h1, h2⟩ := compare_tagsOK allowedNodeTag (fun _ => True)
    (Or.inr (Or.inl rfl)) (Or.inr (Or.inr rfl)) trivial h
    (tagsUnset_dictTagsOK hs h0 trivial) (tagsUnset_dictTagsOK ht h0 trivial)
  have hbad : allowedNodeTag (some "edited") := by
    rcases hx with hx | hx
    · exact nodeTagAt_ok h1 hx
    · exact nodeTagAt_ok h2 hx
  rcases hbad with hb | hb | hb
  · cases hb
  · exact absurd hb (by decide)
  · exact absurd hb (by decide)

/-- C4 (amended): the comparison is node-level only through `created`/`deleted`
tags; differing parameter values yield `edited` tags on the parameters alone, and
the node-level tag of every node in the result is unset, `created` or `deleted` —
never `edited`. -/
theorem compare_node_tags_never_edited {src tgt s' t' : DataDict}
    (h : HipFileComparator.compare src tgt = some (s', t'))
    (hs : tagsUnset src) (ht : tagsUnset tgt) :
    (∀ p x, nodeTagAt s' p = some x → allowedNodeTag x) ∧
    (∀ p x, nodeTagAt t' p = some x → allowedNodeTag x) := by
  have h0 : allowedNodeTag none := Or.inl rfl
  obtain ⟨h1, h2⟩ := compare_tagsOK allowedNodeTag (fun _ => True)
    (Or.inr (Or.inl rfl)) (Or.inr (Or.inr rfl)) trivial h
    (tagsUnset_dictTagsOK hs h0 trivial) (tagsUnset_dictTagsOK ht h0 trivial)
  exact ⟨fun p x hx => nodeTagAt_ok h1 hx, fun p x hx => nodeTagAt_ok h2 hx⟩

/-- Witness for the amended C4 at the concrete inputs `exSrcEq`, `exTgtEq` (equal
node sets, differing parameter value): the common node keeps an unset node tag. -/
theorem compare_node_tags_never_edited_witness :
    tagsUnset exSrcEq ∧ nodeTagAt exSEq "/a" = some none ∧ allowedNodeTag none :=
  ⟨by decide, by rfl,
   (compare_node_tags_never_edited
     (show HipFileComparator.compare exSrcEq exTgtEq = some (exSEq, exTEq) from by rfl)
     (by decide) (by decide)).1 "/a" none (by rfl)⟩


/-! ### Parameter lookup under tag updates -/

theorem parmFind_update_self (l : List (String × ParamData)) (n tg : String) :
    ((l.map (fun q => if q.1 = n then (q.1, { q.2 with tag := some tg }) else q)).find?
        (fun q => q.1 == n)).map (fun q => q.2) =
      (((l.find? (fun q => q.1 == n)).map (fun q => q.2)).map
        (fun q => { q with tag := some tg })) := by
  induction l with
  | nil => rfl
  | cons e l ih =>
      by_cases h : e.1 = n
      · simp only [List.map_cons, if_pos h]
        rw [List.find?_cons_of_pos (p := fun (r : String × ParamData) => r.1 == n) _
          (by simpa using h)]
        rw [List.find?_cons_of_pos (p := fun (r : String × ParamData) => r.1 == n) (a := e) _
          (by simpa using h)]
        simp
      · simp only [List.map_cons, if_neg h]
        rw [List.find?_cons_of_neg (p := fun (r : String × ParamData) => r.1 == n) _
          (by simpa using h)]
        rw [List.find?_cons_of_neg (p := fun (r : String × ParamData) => r.1 == n) (a := e) _
          (by simpa using h)]
        exact ih

theorem parmFind_update_ne (l : List (String × ParamData)) {m n : String} (tg : String)
    (h : m ≠ n) :
    ((l.map (fun q => if q.1 = n then (q.1, { q.2 with tag := some tg }) else q)).find?
        (fun q => q.1 == m)).map (fun q => q.2) =
      (l.find? (fun q => q.1 == m)).map (fun q => q.2) := by
  induction l with
  | nil => rfl
  | cons e l ih =>
      by_cases he : e.1 = n
      · have hne : ¬ (e.1 == m) = true := by
          simp only [beq_iff_eq]
          rw [he]
          exact fun hh => h hh.symm
        simp only [List.map_cons, if_pos he]
        rw [List.find?_cons_of_neg (p := fun (r : String × ParamData) => r.1 == m) _
          (by simpa [he] using hne)]
        rw [List.find?_cons_of_neg (p := fun (r : String × ParamData) => r.1 == m) (a := e) _ hne]
        exact ih
      · by_cases hm : e.1 = m
        · simp only [List.map_cons, if_neg he]
          rw [List.find?_cons_of_pos (p := fun (r : String × ParamData) => r.1 == m) (a := e) _
            (by simpa using hm)]
          rw [List.find?_cons_of_pos (p := fun (r : String × ParamData) => r.1 == m) (a := e) _
            (by simpa using hm)]
        · simp only [List.map_cons, if_neg he]
          rw [List.find?_cons_of_neg (p := fun (r : String × ParamData) => r.1 == m) (a := e) _
            (by simpa using hm)]
          rw [List.find?_cons_of_neg (p := fun (r : String × ParamData) => r.1 == m) (a := e) _
            (by simpa using hm)]
          exact ih

theorem get_parm_setParmTagInNode_self (nd : NodeData) (n tg : String) :
    (setParmTagInNode nd n tg).get_parm_by_name n =
      (nd.get_parm_by_name n).map (fun q => { q with tag := some tg }) :=
  parmFind_update_self nd.parms n tg

theorem get_parm_setParmTagInNode_ne (nd : NodeData) {m n : String} (tg : String)
    (h : m ≠ n) :
    (setParmTagInNode nd n tg).get_parm_by_name m = nd.get_parm_by_name m :=
  parmFind_update_ne nd.parms tg h

theorem get_parm_isSome_iff {nd : NodeData} {n : String} :
    (nd.get_parm_by_name n).isSome = true ↔ n ∈ nd.parms.map Prod.fst := by
  simp [NodeData.get_parm_by_name, List.find?_isSome, beq_iff_eq, List.mem_map]

theorem get_parm_eq_none_of_not_mem {nd : NodeData} {n : String}
    (h : n ∉ nd.parms.map Prod.fst) : nd.get_parm_by_name n = none := by
  cases hg : nd.get_parm_by_name n with
  | none => rfl
  | some pd => exact absurd (get_parm_isSome_iff.mp (by simp [hg])) h

theorem mem_of_get_parm_eq_some {nd : NodeData} {n : String} {pd : ParamData}
    (h : nd.get_parm_by_name n = some pd) : n ∈ nd.parms.map Prod.fst :=
  get_parm_isSome_iff.mp (by simp [h])


/-! ### Value tracking through the parameter loop -/

theorem setParmTagInNode_parms_names (nd : NodeData) (n tg : String) :
    (setParmTagInNode nd n tg).parms.map Prod.fst = nd.parms.map Prod.fst := by
  simp only [setParmTagInNode]
  rw [List.map_map]
  apply List.map_congr_left
  intro x _
  by_cases h : x.1 = n <;> simp [h]

theorem parmNamesNodup_updateNode {d : DataDict} {k : String} {f : NodeData → NodeData}
    (hd : parmNamesNodup d)
    (hf : ∀ nd, (f nd).parms.map Prod.fst = nd.parms.map Prod.fst) :
    parmNamesNodup (updateNode d k f) := by
  intro q hq
  rw [updateNode] at hq
  obtain ⟨q0, hq0, rfl⟩ := List.mem_map.mp hq
  by_cases h : q0.1 = k
  · simp only [if_pos h]
    have := hd q0 hq0
    rw [hf q0.2]
    exact this
  · simp only [if_neg h]
    exact hd q0 hq0

theorem parmNamesNodup_setParmTag {d : DataDict} {k n tg : String}
    (hd : parmNamesNodup d) : parmNamesNodup (setParmTag d k n tg) :=
  parmNamesNodup_updateNode hd (fun nd => setParmTagInNode_parms_names nd n tg)

theorem parmNamesNodup_setNodeTag {d : DataDict} {k tg : String}
    (hd : parmNamesNodup d) : parmNamesNodup (setNodeTag d k tg) :=
  parmNamesNodup_updateNode hd (fun _ => rfl)

theorem compareParms_parmNamesNodup {p : String} :
    ∀ {ns : List String} {s t s' t' : DataDict},
      HipFileComparator.compareParms p ns s t = some (s', t') →
      parmNamesNodup s → parmNamesNodup s' := by
  intro ns
  induction ns with
  | nil =>
      intro s t s' t' h hs
      simp only [HipFileComparator.compareParms] at h
      cases h
      exact hs
  | cons n rest ih =>
      intro s t s' t' h hs
      simp only [HipFileComparator.compareParms] at h
      split at h
      · simp at h
      · split at h
        · simp at h
        · split at h
          · simp at h
          · split at h
            · simp at h
            · split at h
              · exact ih h (parmNamesNodup_setParmTag hs)
              · exact ih h hs

theorem compareParms_spec {p : String} :
    ∀ {ns : List String}, ns.Nodup →
    ∀ {s t s' t' : DataDict},
      HipFileComparator.compareParms p ns s t = some (s', t') →
      (∀ q, q ≠ p → lookupNode s' q = lookupNode s q ∧ lookupNode t' q = lookupNode t q) ∧
      (∀ sn tn, lookupNode s p = some sn → lookupNode t p = some tn →
        nodeTagAt s' p = some sn.tag ∧ nodeTagAt t' p = some tn.tag ∧
        (∀ n, n ∉ ns → parmAt s' p n = sn.get_parm_by_name n ∧
                       parmAt t' p n = tn.get_parm_by_name n) ∧
        (∀ n, n ∈ ns → ∃ sp tp, sn.get_parm_by_name n = some sp ∧
            tn.get_parm_by_name n = some tp ∧
            parmAt s' p n = some (if sp.value.str ≠ tp.value.str
               then { sp with tag := some "edited" } else sp) ∧
            parmAt t' p n = some (if sp.value.str ≠ tp.value.str
               then { tp with tag := some "edited" } else tp))) := by
  intro ns
  induction ns with
  | nil =>
      intro _ s t s' t' h
      simp only [HipFileComparator.compareParms] at h
      cases h
      refine ⟨fun q _ => ⟨rfl, rfl⟩, fun sn tn hsn htn => ?_⟩
      refine ⟨?_, ?_, fun n _ => ⟨?_, ?_⟩, fun n hn => absurd hn (List.not_mem_nil n)⟩
      · simp only [nodeTagAt]
        rw [hsn]
        rfl
      · simp only [nodeTagAt]
        rw [htn]
        rfl
      · simp only [parmAt]
        rw [hsn]
        rfl
      · simp only [parmAt]
        rw [htn]
        rfl
  | cons n rest ih =>
      intro hnd s t s' t' h
      obtain ⟨hn_rest, hrest_nd⟩ := List.nodup_cons.mp hnd
      simp only [HipFileComparator.compareParms] at h
      split at h
      · simp at h
      · rename_i sn0 hsn0
        split at h
        · simp at h
        · rename_i sparm hsparm
          split at h
          · simp at h
          · rename_i tn0 htn0
            split at h
            · simp at h
            · rename_i tparm htparm
              split at h
              · rename_i hdiff
                have IH := ih hrest_nd h
                refine ⟨fun q hq => ?_, fun sn tn hsn htn => ?_⟩
                · obtain ⟨h1, h2⟩ := IH.1 q hq
                  rw [h1, h2]
                  simp only [setParmTag]
                  rw [lookupNode_updateNode_ne _ _ hq, lookupNode_updateNode_ne _ _ hq]
                  exact ⟨rfl, rfl⟩
                · obtain rfl : sn0 = sn := by rw [hsn0] at hsn; exact Option.some.inj hsn
                  obtain rfl : tn0 = tn := by rw [htn0] at htn; exact Option.some.inj htn
                  have hs1 : lookupNode (setParmTag s p n "edited") p =
                      some (setParmTagInNode sn0 n "edited") := by
                    simp only [setParmTag]
                    rw [lookupNode_updateNode_self, hsn0]
                    rfl
                  have ht1 : lookupNode (setParmTag t p n "edited") p =
                      some (setParmTagInNode tn0 n "edited") := by
                    simp only [setParmTag]
                    rw [lookupNode_updateNode_self, htn0]
                    rfl
                  have IHN := IH.2 _ _ hs1 ht1
                  refine ⟨?_, ?_, ?_, ?_⟩
                  · rw [IHN.1]
                    rfl
                  · rw [IHN.2.1]
                    rfl
                  · intro m hm
                    have hm1 : m ≠ n := fun he => hm (by rw [he]; exact List.mem_cons_self n rest)
                    have hm2 : m ∉ rest := fun he => hm (List.mem_cons_of_mem _ he)
                    obtain ⟨hA, hB⟩ := IHN.2.2.1 m hm2
                    rw [hA, hB, get_parm_setParmTagInNode_ne _ _ hm1,
                      get_parm_setParmTagInNode_ne _ _ hm1]
                    exact ⟨rfl, rfl⟩
                  · intro m hm
                    rcases List.mem_cons.mp hm with rfl | hm2
                    · obtain ⟨hA, hB⟩ := IHN.2.2.1 m hn_rest
                      refine ⟨sparm, tparm, hsparm, htparm, ?_, ?_⟩
                      · rw [hA, get_parm_setParmTagInNode_self, hsparm, if_pos hdiff]
                        rfl
                      · rw [hB, get_parm_setParmTagInNode_self, htparm, if_pos hdiff]
                        rfl
                    · have hm1 : m ≠ n := fun he => hn_rest (by rw [← he]; exact hm2)
                      obtain ⟨sp, tp, hsp, htp, hA, hB⟩ := IHN.2.2.2 m hm2
                      rw [get_parm_setParmTagInNode_ne _ _ hm1] at hsp
                      rw [get_parm_setParmTagInNode_ne _ _ hm1] at htp
                      exact ⟨sp, tp, hsp, htp, hA, hB⟩
              · rename_i hndiff
                have IH := ih hrest_nd h
                refine ⟨IH.1, fun sn tn hsn htn => ?_⟩
                obtain rfl : sn0 = sn := by rw [hsn0] at hsn; exact Option.some.inj hsn
                obtain rfl : tn0 = tn := by rw [htn0] at htn; exact Option.some.inj htn
                have IHN := IH.2 _ _ hsn htn
                refine ⟨IHN.1, IHN.2.1, ?_, ?_⟩
                · intro m hm
                  exact IHN.2.2.1 m (fun he => hm (List.mem_cons_of_mem _ he))
                · intro m hm
                  rcases List.mem_cons.mp hm with rfl | hm2
                  · obtain ⟨hA, hB⟩ := IHN.2.2.1 m hn_rest
                    refine ⟨sparm, tparm, hsparm, htparm, ?_, ?_⟩
                    · rw [hA, hsparm, if_neg hndiff]
                    · rw [hB, htparm, if_neg hndiff]
                  · exact IHN.2.2.2 m hm2


theorem processSource_target_nodup :
    ∀ {ks : List String} {s t s' t' : DataDict},
      HipFileComparator.processSource ks s t = some (s', t') →
      (dictKeys t).Nodup → (dictKeys t').Nodup := by
  intro ks
  induction ks with
  | nil =>
      intro s t s' t' h ht
      simp only [HipFileComparator.processSource] at h
      cases h
      exact ht
  | cons p rest ih =>
      intro s t s' t' h ht
      simp only [HipFileComparator.processSource] at h
      split at h
      · simp at h
      · rename_i sn0 hsn0
        split at h
        · split at h
          · simp at h
          · rename_i s1 t1 hcp
            exact ih h ((compareParms_keys hcp).2 ▸ ht)
        · rename_i hmem
          refine ih h ?_
          rw [dictKeys_insert]
          rw [List.Perm.nodup_iff (insertAt_perm_cons _ _ _)]
          exact List.nodup_cons.mpr ⟨fun hc => hmem (hasKey_iff.mpr hc), ht⟩

theorem processSource_spec :
    ∀ {ks : List String}, ks.Nodup →
    ∀ {s t s' t' : DataDict}, parmNamesNodup s →
      HipFileComparator.processSource ks s t = some (s', t') →
      (∀ q, q ∉ ks → lookupNode s' q = lookupNode s q ∧ lookupNode t' q = lookupNode t q) ∧
      (∀ p, p ∈ ks → ∀ sn, lookupNode s p = some sn →
        (p ∉ dictKeys t →
           lookupNode s' p = some { sn with tag := some "deleted" } ∧
           lookupNode t' p = some (placeholderNode sn.parent_path "deleted")) ∧
        (p ∈ dictKeys t → ∀ tn, lookupNode t p = some tn →
           nodeTagAt s' p = some sn.tag ∧ nodeTagAt t' p = some tn.tag ∧
           (∀ n, sn.get_parm_by_name n = none →
              parmAt s' p n = none ∧ parmAt t' p n = tn.get_parm_by_name n) ∧
           (∀ n sp, sn.get_parm_by_name n = some sp → ∃ tp,
              tn.get_parm_by_name n = some tp ∧
              parmAt s' p n = some (if sp.value.str ≠ tp.value.str
                 then { sp with tag := some "edited" } else sp) ∧
              parmAt t' p n = some (if sp.value.str ≠ tp.value.str
                 then { tp with tag := some "edited" } else tp)))) := by
  intro ks
  induction ks with
  | nil =>
      intro _ s t s' t' _ h
      simp only [HipFileComparator.processSource] at h
      cases h
      exact ⟨fun q _ => ⟨rfl, rfl⟩, fun p hp => absurd hp (List.not_mem_nil p)⟩
  | cons p rest ih =>
      intro hnd s t s' t' hpn h
      obtain ⟨hp_rest, hrest⟩ := List.nodup_cons.mp hnd
      simp only [HipFileComparator.processSource] at h
      split at h
      · simp at h
      · rename_i sn0 hsn0
        split at h
        · rename_i hmem
          split at h
          · simp at h
          · rename_i s1 t1 hcp
            have hns : (sn0.parms.map Prod.fst).Nodup := hpn (p, sn0) (lookupNode_mem hsn0)
            have CP := compareParms_spec hns hcp
            have IH := ih hrest (compareParms_parmNamesNodup hcp hpn) h
            have hkt1 : dictKeys t1 = dictKeys t := (compareParms_keys hcp).2
            refine ⟨fun q hq => ?_, fun p2 hp2 sn hsn => ?_⟩
            · have hq1 : q ≠ p := fun he => hq (by rw [he]; exact List.mem_cons_self p rest)
              have hq2 : q ∉ rest := fun he => hq (List.mem_cons_of_mem _ he)
              obtain ⟨h1, h2⟩ := IH.1 q hq2
              obtain ⟨h3, h4⟩ := CP.1 q hq1
              exact ⟨h1.trans h3, h2.trans h4⟩
            · rcases List.mem_cons.mp hp2 with rfl | hp2r
              · -- p2 = p, the common path processed by this step
                obtain rfl : sn0 = sn := by rw [hsn0] at hsn; exact Option.some.inj hsn
                obtain ⟨hu1, hu2⟩ := IH.1 p2 hp_rest
                refine ⟨fun hniet => absurd (hasKey_iff.mp hmem) hniet, fun _ tn htn => ?_⟩
                have CPN := CP.2 sn0 tn hsn htn
                refine ⟨?_, ?_, ?_, ?_⟩
                · simp only [nodeTagAt] at CPN ⊢
                  rw [hu1]
                  exact CPN.1
                · simp only [nodeTagAt] at CPN ⊢
                  rw [hu2]
                  exact CPN.2.1
                · intro n hgn
                  have hnin : n ∉ sn0.parms.map Prod.fst := fun hin => by
                    have := get_parm_isSome_iff.mpr hin
                    rw [hgn] at this
                    cases this
                  obtain ⟨hA, hB⟩ := CPN.2.2.1 n hnin
                  constructor
                  · simp only [parmAt] at hA ⊢
                    rw [hu1, hA, hgn]
                  · simp only [parmAt] at hB ⊢
                    rw [hu2, hB]
                · intro n sp hgn
                  have hin : n ∈ sn0.parms.map Prod.fst := mem_of_get_parm_eq_some hgn
                  obtain ⟨sp2, tp, hsp2, htp, hA, hB⟩ := CPN.2.2.2 n hin
                  obtain rfl : sp2 = sp := by rw [hgn] at hsp2; exact (Option.some.inj hsp2).symm
                  refine ⟨tp, htp, ?_, ?_⟩
                  · simp only [parmAt] at hA ⊢
                    rw [hu1]
                    exact hA
                  · simp only [parmAt] at hB ⊢
                    rw [hu2]
                    exact hB
              · -- p2 further down the key list
                have hne : p2 ≠ p := fun he => hp_rest (by rw [← he]; exact hp2r)
                obtain ⟨hc1, hc2⟩ := CP.1 p2 hne
                have IHB := IH.2 p2 hp2r sn (by rw [hc1]; exact hsn)
                refine ⟨fun hniet => ?_, fun hyes tn htn => ?_⟩
                · exact IHB.1 (by rw [hkt1]; exact hniet)
                · exact IHB.2 (by rw [hkt1]; exact hyes) tn (by rw [hc2]; exact htn)
        · rename_i hmem
          have hpt : p ∉ dictKeys t := fun hc => hmem (hasKey_iff.mpr hc)
          have IH := ih hrest (parmNamesNodup_setNodeTag hpn) h
          refine ⟨fun q hq => ?_, fun p2 hp2 sn hsn => ?_⟩
          · have hq1 : q ≠ p := fun he => hq (by rw [he]; exact List.mem_cons_self p rest)
            have hq2 : q ∉ rest := fun he => hq (List.mem_cons_of_mem _ he)
            obtain ⟨h1, h2⟩ := IH.1 q hq2
            constructor
            · rw [h1]
              simp only [setNodeTag]
              exact lookupNode_updateNode_ne _ _ hq1
            · rw [h2]
              exact lookupNode_insert_ne _ _ _ hq1
          · rcases List.mem_cons.mp hp2 with rfl | hp2r
            · obtain rfl : sn0 = sn := by rw [hsn0] at hsn; exact Option.some.inj hsn
              obtain ⟨hu1, hu2⟩ := IH.1 p2 hp_rest
              refine ⟨fun _ => ?_, fun hyes => absurd hyes hpt⟩
              constructor
              · rw [hu1]
                simp only [setNodeTag]
                rw [lookupNode_updateNode_self, hsn0]
                rfl
              · rw [hu2, lookupNode_insert_self _ _ _ hpt]
                rfl
            · have hne : p2 ≠ p := fun he => hp_rest (by rw [← he]; exact hp2r)
              have hs1 : lookupNode (setNodeTag s p "deleted") p2 = lookupNode s p2 := by
                simp only [setNodeTag]
                exact lookupNode_updateNode_ne _ _ hne
              have ht1 : ∀ v i, lookupNode (ordered_dict_insert t i p v) p2 = lookupNode t p2 :=
                fun v i => lookupNode_insert_ne _ _ _ hne
              have IHB := IH.2 p2 hp2r sn (by rw [hs1]; exact hsn)
              have hkmem : ∀ v i, (p2 ∈ dictKeys (ordered_dict_insert t i p v)) ↔ p2 ∈ dictKeys t := by
                intro v i
                rw [dictKeys_insert, mem_insertAt_iff]
                exact or_iff_right hne
              refine ⟨fun hniet => ?_, fun hyes tn htn => ?_⟩
              · exact IHB.1 (fun hc => hniet ((hkmem _ _).mp hc))
              · exact IHB.2 ((hkmem _ _).mpr hyes) tn (by rw [ht1]; exact htn)


theorem processTarget_spec :
    ∀ {ks : List String}, ks.Nodup →
    ∀ {s t s' t' : DataDict},
      HipFileComparator.processTarget ks s t = some (s', t') →
      (∀ q, q ∉ ks → lookupNode s' q = lookupNode s q ∧ lookupNode t' q = lookupNode t q) ∧
      (∀ p, p ∈ ks →
        (p ∈ dictKeys s →
           lookupNode s' p = lookupNode s p ∧ lookupNode t' p = lookupNode t p) ∧
        (p ∉ dictKeys s → ∀ tn, lookupNode t p = some tn →
           lookupNode s' p = some (placeholderNode tn.parent_path "created") ∧
           lookupNode t' p = some { tn with tag := some "created" })) := by
  intro ks
  induction ks with
  | nil =>
      intro _ s t s' t' h
      simp only [HipFileComparator.processTarget] at h
      cases h
      exact ⟨fun q _ => ⟨rfl, rfl⟩, fun p hp => absurd hp (List.not_mem_nil p)⟩
  | cons p rest ih =>
      intro hnd s t s' t' h
      obtain ⟨hp_rest, hrest⟩ := List.nodup_cons.mp hnd
      simp only [HipFileComparator.processTarget] at h
      split at h
      · rename_i hmem
        have IH := ih hrest h
        refine ⟨fun q hq => IH.1 q (fun he => hq (List.mem_cons_of_mem _ he)),
          fun p2 hp2 => ?_⟩
        rcases List.mem_cons.mp hp2 with rfl | hp2r
        · exact ⟨fun _ => IH.1 p2 hp_rest,
            fun hniet => absurd (hasKey_iff.mp hmem) hniet⟩
        · exact IH.2 p2 hp2r
      · rename_i hmem
        have hps : p ∉ dictKeys s := fun hc => hmem (hasKey_iff.mpr hc)
        split at h
        · simp at h
        · rename_i tn0 htn0
          have IH := ih hrest h
          refine ⟨fun q hq => ?_, fun p2 hp2 => ?_⟩
          · have hq1 : q ≠ p := fun he => hq (by rw [he]; exact List.mem_cons_self p rest)
            have hq2 : q ∉ rest := fun he => hq (List.mem_cons_of_mem _ he)
            obtain ⟨h1, h2⟩ := IH.1 q hq2
            constructor
            · rw [h1]
              exact lookupNode_insert_ne _ _ _ hq1
            · rw [h2]
              simp only [setNodeTag]
              exact lookupNode_updateNode_ne _ _ hq1
          · rcases List.mem_cons.mp hp2 with rfl | hp2r
            · obtain ⟨hu1, hu2⟩ := IH.1 p2 hp_rest
              refine ⟨fun hyes => absurd hyes hps, fun _ tn htn => ?_⟩
              obtain rfl : tn0 = tn := by rw [htn0] at htn; exact Option.some.inj htn
              constructor
              · rw [hu1, lookupNode_insert_self _ _ _ hps]
                rfl
              · rw [hu2]
                simp only [setNodeTag]
                rw [lookupNode_updateNode_self, htn0]
                rfl
            · have hne : p2 ≠ p := fun he => hp_rest (by rw [← he]; exact hp2r)
              have hs1 : ∀ v i, lookupNode (ordered_dict_insert s i p v) p2 = lookupNode s p2 :=
                fun v i => lookupNode_insert_ne _ _ _ hne
              have ht1 : lookupNode (setNodeTag t p "created") p2 = lookupNode t p2 := by
                simp only [setNodeTag]
                exact lookupNode_updateNode_ne _ _ hne
              have IHB := IH.2 p2 hp2r
              have hkmem : ∀ v i, (p2 ∈ dictKeys (ordered_dict_insert s i p v)) ↔ p2 ∈ dictKeys s := by
                intro v i
                rw [dictKeys_insert, mem_insertAt_iff]
                exact or_iff_right hne
              refine ⟨fun hyes => ?_, fun hniet tn htn => ?_⟩
              · obtain ⟨h1, h2⟩ := IHB.1 ((hkmem _ _).mpr hyes)
                rw [h1, h2, ht1, hs1]
                exact ⟨rfl, rfl⟩
              · obtain ⟨h1, h2⟩ := IHB.2 (fun hc => hniet ((hkmem _ _).mp hc)) tn
                  (by rw [ht1]; exact htn)
                exact ⟨h1, h2⟩


theorem lookup_tag_none {d : DataDict} {p : String} {nd : NodeData}
    (hd : tagsUnset d) (h : lookupNode d p = some nd) : nd.tag = none :=
  (hd (p, nd) (lookupNode_mem h)).1

theorem parmAt_tag_none {d : DataDict} {p n : String} {sp : ParamData}
    (hd : tagsUnset d) (h : parmAt d p n = some sp) : sp.tag = none := by
  rw [parmAt, Option.bind_eq_some] at h
  obtain ⟨nd, hnd, hg⟩ := h
  rw [NodeData.get_parm_by_name, Option.map_eq_some'] at hg
  obtain ⟨r, hr, hr2⟩ := hg
  have := (hd (p, nd) (lookupNode_mem hnd)).2 r (List.mem_of_find?_eq_some hr)
  rw [← hr2]
  exact this

theorem parmAt_eq_get {d : DataDict} {p : String} {nd : NodeData}
    (h : lookupNode d p = some nd) (n : String) :
    parmAt d p n = nd.get_parm_by_name n := by
  rw [parmAt, h]
  rfl

/-- C3: after `compare` on freshly loaded inputs, a node read from the source file
carries the `deleted` tag exactly when its path is absent from the target map; a
node read from the target file carries the `created` tag exactly when its path is
absent from the source map; nodes present in both keep their node-level tag unset. -/
theorem compare_node_tag_iff {src tgt s' t' : DataDict}
    (hnods : (dictKeys src).Nodup) (hnodt : (dictKeys tgt).Nodup)
    (hpn : parmNamesNodup src) (hsrc : tagsUnset src) (htgt : tagsUnset tgt)
    (h : HipFileComparator.compare src tgt = some (s', t')) :
    (∀ p, p ∈ dictKeys src →
       ((nodeTagAt s' p = some (some "deleted")) ↔ p ∉ dictKeys tgt) ∧
       (p ∈ dictKeys tgt → nodeTagAt s' p = some none)) ∧
    (∀ p, p ∈ dictKeys tgt →
       ((nodeTagAt t' p = some (some "created")) ↔ p ∉ dictKeys src) ∧
       (p ∈ dictKeys src → nodeTagAt t' p = some none)) := by
  simp only [HipFileComparator.compare] at h
  split at h
  · simp at h
  · rename_i s1 t1 hps
    have hks1 : dictKeys s1 = dictKeys src := (processSource_keys hps).1
    have hmem_t1 : ∀ q, q ∈ dictKeys t1 ↔ q ∈ dictKeys tgt ∨ q ∈ dictKeys src :=
      (processSource_keys hps).2
    have hnd_t1 : (dictKeys t1).Nodup := processSource_target_nodup hps hnodt
    have PS := processSource_spec hnods hpn hps
    have PT := processTarget_spec hnd_t1 h
    constructor
    · intro p hp
      obtain ⟨sn, hsn⟩ := lookupNode_eq_some_of_mem hp
      have hp_t1 : p ∈ dictKeys t1 := (hmem_t1 p).mpr (Or.inr hp)
      obtain ⟨hA, hB⟩ := (PT.2 p hp_t1).1 (by rw [hks1]; exact hp)
      by_cases hpt : p ∈ dictKeys tgt
      · obtain ⟨tn, htn⟩ := lookupNode_eq_some_of_mem hpt
        have PSB := ((PS.2 p hp sn hsn).2 hpt tn htn).1
        have hfin : nodeTagAt s' p = some none := by
          simp only [nodeTagAt] at PSB ⊢
          rw [hA, PSB, lookup_tag_none hsrc hsn]
        refine ⟨?_, fun _ => hfin⟩
        rw [hfin]
        constructor
        · intro he
          exact absurd (Option.some.inj he) (by decide)
        · intro he
          exact absurd hpt he
      · have PSB := ((PS.2 p hp sn hsn).1 hpt).1
        have hfin : nodeTagAt s' p = some (some "deleted") := by
          simp only [nodeTagAt]
          rw [hA, PSB]
          rfl
        exact ⟨by rw [hfin]; exact iff_of_true rfl hpt, fun hc => absurd hc hpt⟩
    · intro p hp
      obtain ⟨tn, htn⟩ := lookupNode_eq_some_of_mem hp
      have hp_t1 : p ∈ dictKeys t1 := (hmem_t1 p).mpr (Or.inl hp)
      by_cases hpsrc : p ∈ dictKeys src
      · obtain ⟨sn, hsn⟩ := lookupNode_eq_some_of_mem hpsrc
        obtain ⟨hA, hB⟩ := (PT.2 p hp_t1).1 (by rw [hks1]; exact hpsrc)
        have PSB := ((PS.2 p hpsrc sn hsn).2 hp tn htn).2.1
        have hfin : nodeTagAt t' p = some none := by
          simp only [nodeTagAt] at PSB ⊢
          rw [hB, PSB, lookup_tag_none htgt htn]
        refine ⟨?_, fun _ => hfin⟩
        rw [hfin]
        constructor
        · intro he
          exact absurd (Option.some.inj he) (by decide)
        · intro he
          exact absurd hpsrc he
      · obtain ⟨hA0, hB0⟩ := PS.1 p hpsrc
        have ht1 : lookupNode t1 p = some tn := by rw [hB0]; exact htn
        obtain ⟨hA, hB⟩ := (PT.2 p hp_t1).2 (by rw [hks1]; exact hpsrc) tn ht1
        have hfin : nodeTagAt t' p = some (some "created") := by
          simp only [nodeTagAt]
          rw [hB]
          rfl
        exact ⟨by rw [hfin]; exact iff_of_true rfl hpsrc, fun hc => absurd hc hpsrc⟩

/-- Witness for C3 at `exSrc`, `exTgt`. -/
theorem compare_node_tag_iff_witness :
    ((nodeTagAt exS1 "/b" = some (some "deleted")) ↔ "/b" ∉ dictKeys exTgt) ∧
    ((nodeTagAt exT1 "/p" = some (some "created")) ↔ "/p" ∉ dictKeys exSrc) :=
  ⟨((compare_node_tag_iff (by decide) (by decide) (by decide) (by decide) (by decide)
      (show HipFileComparator.compare exSrc exTgt = some (exS1, exT1) from by rfl)).1
      "/b" (by decide)).1,
   ((compare_node_tag_iff (by decide) (by decide) (by decide) (by decide) (by decide)
      (show HipFileComparator.compare exSrc exTgt = some (exS1, exT1) from by rfl)).2
      "/p" (by decide)).1⟩

/-- C10: every placeholder inserted by `compare` has empty name and icon, the
parent path of the real node on the other side, the appropriate
`deleted`/`created` tag, and an empty parameter mapping. -/
theorem compare_placeholder_contents {src tgt s' t' : DataDict}
    (hnods : (dictKeys src).Nodup) (hnodt : (dictKeys tgt).Nodup)
    (hpn : parmNamesNodup src)
    (h : HipFileComparator.compare src tgt = some (s', t')) :
    (∀ p, p ∈ dictKeys src → p ∉ dictKeys tgt →
       ∃ sn, lookupNode src p = some sn ∧
         lookupNode t' p = some (placeholderNode sn.parent_path "deleted")) ∧
    (∀ p, p ∈ dictKeys tgt → p ∉ dictKeys src →
       ∃ tn, lookupNode tgt p = some tn ∧
         lookupNode s' p = some (placeholderNode tn.parent_path "created")) := by
  simp only [HipFileComparator.compare] at h
  split at h
  · simp at h
  · rename_i s1 t1 hps
    have hks1 : dictKeys s1 = dictKeys src := (processSource_keys hps).1
    have hmem_t1 : ∀ q, q ∈ dictKeys t1 ↔ q ∈ dictKeys tgt ∨ q ∈ dictKeys src :=
      (processSource_keys hps).2
    have hnd_t1 : (dictKeys t1).Nodup := processSource_target_nodup hps hnodt
    have PS := processSource_spec hnods hpn hps
    have PT := processTarget_spec hnd_t1 h
    constructor
    · intro p hp hpt
      obtain ⟨sn, hsn⟩ := lookupNode_eq_some_of_mem hp
      have hp_t1 : p ∈ dictKeys t1 := (hmem_t1 p).mpr (Or.inr hp)
      obtain ⟨hA, hB⟩ := (PT.2 p hp_t1).1 (by rw [hks1]; exact hp)
      have PSB := ((PS.2 p hp sn hsn).1 hpt).2
      exact ⟨sn, hsn, by rw [hB]; exact PSB⟩
    · intro p hp hpsrc
      obtain ⟨tn, htn⟩ := lookupNode_eq_some_of_mem hp
      have hp_t1 : p ∈ dictKeys t1 := (hmem_t1 p).mpr (Or.inl hp)
      obtain ⟨hA0, hB0⟩ := PS.1 p hpsrc
      have ht1 : lookupNode t1 p = some tn := by rw [hB0]; exact htn
      obtain ⟨hA, hB⟩ := (PT.2 p hp_t1).2 (by rw [hks1]; exact hpsrc) tn ht1
      exact ⟨tn, htn, hA⟩

/-- Witness for C10 at `exSrc`, `exTgt`. -/
theorem compare_placeholder_contents_witness :
    (∃ sn, lookupNode exSrc "/b" = some sn ∧
       lookupNode exT1 "/b" = some (placeholderNode sn.parent_path "deleted")) ∧
    (∃ tn, lookupNode exTgt "/p" = some tn ∧
       lookupNode exS1 "/p" = some (placeholderNode tn.parent_path "created")) :=
  ⟨(compare_placeholder_contents (by decide) (by decide) (by decide)
      (show HipFileComparator.compare exSrc exTgt = some (exS1, exT1) from by rfl)).1
      "/b" (by decide) (by decide),
   (compare_placeholder_contents (by decide) (by decide) (by decide)
      (show HipFileComparator.compare exSrc exTgt = some (exS1, exT1) from by rfl)).2
      "/p" (by decide) (by decide)⟩


/-- C5: for a node present in both inputs (freshly loaded), a parameter present on
the source-side node is tagged `edited` on both sides exactly when the string forms
of the two values differ; equal-valued parameters keep their tags unset; `compare`
only succeeds when every such parameter also exists on the target node; and
parameters existing only on the target-side node are left untouched. -/
theorem compare_parm_tag_iff {src tgt s' t' : DataDict}
    (hnods : (dictKeys src).Nodup) (hnodt : (dictKeys tgt).Nodup)
    (hpn : parmNamesNodup src) (hsrc : tagsUnset src) (htgt : tagsUnset tgt)
    (h : HipFileComparator.compare src tgt = some (s', t')) :
    ∀ p, p ∈ dictKeys src → p ∈ dictKeys tgt →
      (∀ n sp tp, parmAt src p n = some sp → parmAt tgt p n = some tp →
        ((parmTagAt s' p n = some (some "edited")) ↔ sp.value.str ≠ tp.value.str) ∧
        ((parmTagAt t' p n = some (some "edited")) ↔ sp.value.str ≠ tp.value.str) ∧
        (sp.value.str = tp.value.str →
           parmTagAt s' p n = some none ∧ parmTagAt t' p n = some none)) ∧
      (∀ n sp, parmAt src p n = some sp → ∃ tp, parmAt tgt p n = some tp) ∧
      (∀ n, parmAt src p n = none → parmAt t' p n = parmAt tgt p n) := by
  simp only [HipFileComparator.compare] at h
  split at h
  · simp at h
  · rename_i s1 t1 hps
    have hks1 : dictKeys s1 = dictKeys src := (processSource_keys hps).1
    have hmem_t1 : ∀ q, q ∈ dictKeys t1 ↔ q ∈ dictKeys tgt ∨ q ∈ dictKeys src :=
      (processSource_keys hps).2
    have hnd_t1 : (dictKeys t1).Nodup := processSource_target_nodup hps hnodt
    have PS := processSource_spec hnods hpn hps
    have PT := processTarget_spec hnd_t1 h
    intro p hp hpt
    obtain ⟨sn, hsn⟩ := lookupNode_eq_some_of_mem hp
    obtain ⟨tn, htn⟩ := lookupNode_eq_some_of_mem hpt
    have hp_t1 : p ∈ dictKeys t1 := (hmem_t1 p).mpr (Or.inr hp)
    obtain ⟨hA, hB⟩ := (PT.2 p hp_t1).1 (by rw [hks1]; exact hp)
    have PSB := (PS.2 p hp sn hsn).2 hpt tn htn
    have hgets : ∀ n, parmAt src p n = sn.get_parm_by_name n := parmAt_eq_get hsn
    have hgett : ∀ n, parmAt tgt p n = tn.get_parm_by_name n := parmAt_eq_get htn
    have hfinS : ∀ n, parmAt s' p n = parmAt s1 p n := by
      intro n
      simp only [parmAt]
      rw [hA]
    have hfinT : ∀ n, parmAt t' p n = parmAt t1 p n := by
      intro n
      simp only [parmAt]
      rw [hB]
    refine ⟨?_, ?_, ?_⟩
    · intro n sp tp hsp htp
      rw [hgets n] at hsp
      rw [hgett n] at htp
      obtain ⟨tp2, htp2, hS, hT⟩ := PSB.2.2.2 n sp hsp
      obtain rfl : tp = tp2 := by rw [htp] at htp2; exact Option.some.inj htp2
      have hsp_tag : sp.tag = none := parmAt_tag_none hsrc (by rw [hgets n]; exact hsp)
      have htp_tag : tp.tag = none := parmAt_tag_none htgt (by rw [hgett n]; exact htp)
      by_cases hd : sp.value.str ≠ tp.value.str
      · have hS2 : parmTagAt s' p n = some (some "edited") := by
          simp only [parmTagAt]
          rw [hfinS n, hS, if_pos hd]
          rfl
        have hT2 : parmTagAt t' p n = some (some "edited") := by
          simp only [parmTagAt]
          rw [hfinT n, hT, if_pos hd]
          rfl
        exact ⟨iff_of_true hS2 hd, iff_of_true hT2 hd, fun he => absurd he hd⟩
      · have heq : sp.value.str = tp.value.str := not_not.mp (fun hc => hd hc)
        have hS2 : parmTagAt s' p n = some none := by
          simp only [parmTagAt]
          rw [hfinS n, hS, if_neg hd]
          simp [hsp_tag]
        have hT2 : parmTagAt t' p n = some none := by
          simp only [parmTagAt]
          rw [hfinT n, hT, if_neg hd]
          simp [htp_tag]
        refine ⟨?_, ?_, fun _ => ⟨hS2, hT2⟩⟩
        · rw [hS2]
          exact iff_of_false (fun he => absurd (Option.some.inj he) (by decide)) (fun he => hd he)
        · rw [hT2]
          exact iff_of_false (fun he => absurd (Option.some.inj he) (by decide)) (fun he => hd he)
    · intro n sp hsp
      rw [hgets n] at hsp
      obtain ⟨tp, htp, _, _⟩ := PSB.2.2.2 n sp hsp
      exact ⟨tp, by rw [hgett n]; exact htp⟩
    · intro n hsp
      rw [hgets n] at hsp
      obtain ⟨_, hTn⟩ := PSB.2.2.1 n hsp
      rw [hfinT n, hTn, hgett n]

/-- Witness for C5 at `exSrc`, `exTgt`, parameter `tx` of the common node `/a`. -/
theorem compare_parm_tag_iff_witness :
    ((parmTagAt exS1 "/a" "tx" = some (some "edited")) ↔
      (PValue.ofInt 1).str ≠ (PValue.ofInt 2).str) ∧
    ((parmTagAt exT1 "/a" "tx" = some (some "edited")) ↔
      (PValue.ofInt 1).str ≠ (PValue.ofInt 2).str) := by
  have H := (compare_parm_tag_iff (by decide) (by decide) (by decide) (by decide) (by decide)
      (show HipFileComparator.compare exSrc exTgt = some (exS1, exT1) from by rfl))
      "/a" (by decide) (by decide)
  have H2 := H.1 "tx" { name := "tx", value := .ofInt 1, tag := none }
      { name := "tx", value := .ofInt 2, tag := none } (by rfl) (by rfl)
  exact ⟨H2.1, H2.2.1⟩


/-! ### Insertion positions: the weave skeleton -/

theorem processSource_weave :
    ∀ {ks : List String} {s t s' t' : DataDict},
      HipFileComparator.processSource ks s t = some (s', t') →
      dictKeys t' = weaveKeys (dictKeys s) ks (dictKeys t) := by
  intro ks
  induction ks with
  | nil =>
      intro s t s' t' h
      simp only [HipFileComparator.processSource] at h
      cases h
      rfl
  | cons p rest ih =>
      intro s t s' t' h
      simp only [HipFileComparator.processSource] at h
      split at h
      · simp at h
      · rename_i sn0 hsn0
        split at h
        · rename_i hmem
          split at h
          · simp at h
          · rename_i s1 t1 hcp
            obtain ⟨hk1, hk2⟩ := compareParms_keys hcp
            simp only [weaveKeys]
            rw [if_pos (hasKey_iff.mp hmem)]
            rw [ih h, hk1, hk2]
        · rename_i hmem
          simp only [weaveKeys]
          rw [if_neg (fun hc => hmem (hasKey_iff.mpr hc))]
          rw [ih h]
          have e1 : dictKeys (setNodeTag s p "deleted") = dictKeys s := by
            simp only [setNodeTag]
            exact dictKeys_updateNode _ _ _
          rw [e1, dictKeys_insert]
          rfl

theorem processTarget_weave :
    ∀ {ks : List String} {s t s' t' : DataDict},
      HipFileComparator.processTarget ks s t = some (s', t') →
      dictKeys s' = weaveKeys (dictKeys t) ks (dictKeys s) := by
  intro ks
  induction ks with
  | nil =>
      intro s t s' t' h
      simp only [HipFileComparator.processTarget] at h
      cases h
      rfl
  | cons p rest ih =>
      intro s t s' t' h
      simp only [HipFileComparator.processTarget] at h
      split at h
      · rename_i hmem
        simp only [weaveKeys]
        rw [if_pos (hasKey_iff.mp hmem)]
        exact ih h
      · rename_i hmem
        split at h
        · simp at h
        · rename_i tn0 htn0
          simp only [weaveKeys]
          rw [if_neg (fun hc => hmem (hasKey_iff.mpr hc))]
          rw [ih h]
          have e1 : dictKeys (setNodeTag t p "created") = dictKeys t := by
            simp only [setNodeTag]
            exact dictKeys_updateNode _ _ _
          rw [e1, dictKeys_insert]
          rfl

theorem contains_iff (l : List String) (a : String) : l.contains a = true ↔ a ∈ l := by
  simp [List.contains, List.elem_iff]

theorem length_filter_partition (l : List String) (p : String → Bool) :
    (l.filter p).length + (l.filter (fun a => !p a)).length = l.length := by
  induction l with
  | nil => rfl
  | cons a l ih =>
      cases h : p a <;> simp only [List.filter_cons, h] <;> simp <;> omega

theorem filter_contains_self (l : List String) :
    l.filter (fun x => l.contains x) = l :=
  List.filter_eq_self.mpr (fun a ha => (contains_iff l a).mpr ha)


theorem weaveKeys_invariant {full : List String} (hfull : full.Nodup) :
    ∀ (ks pre acc acc0 : List String),
      full = pre ++ ks →
      (∀ q, q ∈ acc ↔ q ∈ acc0 ∨ q ∈ pre) →
      acc.Nodup →
      acc.length = acc0.length + (pre.filter (fun x => !acc0.contains x)).length →
      (∀ p ∈ pre, p ∉ acc0 → keyIndex acc p = keyIndex full p) →
      acc.filter (fun x => acc0.contains x) = acc0 →
      (∀ q, q ∈ weaveKeys full ks acc ↔ q ∈ acc0 ∨ q ∈ full) ∧
      (weaveKeys full ks acc).Nodup ∧
      (∀ p ∈ full, p ∉ acc0 → keyIndex (weaveKeys full ks acc) p = keyIndex full p) ∧
      (weaveKeys full ks acc).filter (fun x => acc0.contains x) = acc0 := by
  intro ks
  induction ks with
  | nil =>
      intro pre acc acc0 hpre hmem hnd hlen hidx hfil
      rw [List.append_nil] at hpre
      subst hpre
      simp only [weaveKeys]
      exact ⟨hmem, hnd, hidx, hfil⟩
  | cons p rest ih =>
      intro pre acc acc0 hpre hmem hnd hlen hidx hfil
      have hfull2 : (pre ++ p :: rest).Nodup := hpre ▸ hfull
      rw [List.nodup_append] at hfull2
      obtain ⟨hnd_pre, hnd_pr, hdisj⟩ := hfull2
      have hp_rest : p ∉ rest := (List.nodup_cons.mp hnd_pr).1
      have hp_pre : p ∉ pre := fun hc => hdisj hc (List.mem_cons_self p rest)
      have hassoc : full = (pre ++ [p]) ++ rest := by
        rw [hpre, List.append_assoc]
        rfl
      have hj : keyIndex full p = pre.length := by
        rw [hpre, keyIndex_append_of_not_mem _ hp_pre]
        simp [keyIndex]
      simp only [weaveKeys]
      by_cases hin : p ∈ acc
      · rw [if_pos hin]
        have hp_acc0 : p ∈ acc0 := by
          rcases (hmem p).mp hin with h1 | h1
          · exact h1
          · exact absurd h1 hp_pre
        refine ih (pre ++ [p]) acc acc0 hassoc ?_ hnd ?_ ?_ hfil
        · intro q
          rw [hmem q]
          rw [List.mem_append]
          constructor
          · rintro (h1 | h1)
            · exact Or.inl h1
            · exact Or.inr (Or.inl h1)
          · rintro (h1 | h1 | h1)
            · exact Or.inl h1
            · exact Or.inr h1
            · exact Or.inl ((List.mem_singleton.mp h1) ▸ hp_acc0)
        · rw [hlen]
          congr 1
          rw [List.filter_append]
          have hone : [p].filter (fun x => !acc0.contains x) = [] := by
            simp [hp_acc0]
          rw [hone, List.append_nil]
        · intro p2 hp2 hp2n
          rcases List.mem_append.mp hp2 with h1 | h1
          · exact hidx p2 h1 hp2n
          · exact absurd ((List.mem_singleton.mp h1) ▸ hp_acc0) hp2n
      · rw [if_neg hin]
        have hp_acc0 : p ∉ acc0 := fun hc => hin ((hmem p).mpr (Or.inl hc))
        have hsub : (pre.filter (fun x => acc0.contains x)) ⊆ acc0 := by
          intro a ha
          exact (contains_iff _ _).mp (List.of_mem_filter ha)
        have hle : (pre.filter (fun x => acc0.contains x)).length ≤ acc0.length :=
          (List.subperm_of_subset (hnd_pre.filter _) hsub).length_le
        have hjlen : pre.length ≤ acc.length := by
          have hpart := length_filter_partition pre (fun x => acc0.contains x)
          omega
        have hperm : (acc.take (keyIndex full p) ++ p :: acc.drop (keyIndex full p)).Perm
            (p :: acc) := insertAt_perm_cons acc p _
        refine ih (pre ++ [p]) _ acc0 hassoc ?_ ?_ ?_ ?_ ?_
        · intro q
          rw [mem_insertAt_iff, hmem q, List.mem_append]
          constructor
          · rintro (rfl | h1 | h1)
            · exact Or.inr (Or.inr (List.mem_singleton.mpr rfl))
            · exact Or.inl h1
            · exact Or.inr (Or.inl h1)
          · rintro (h1 | h1 | h1)
            · exact Or.inr (Or.inl h1)
            · exact Or.inr (Or.inr h1)
            · exact Or.inl ((List.mem_singleton.mp h1) ▸ rfl)
        · exact (List.Perm.nodup_iff hperm).mpr (List.nodup_cons.mpr ⟨hin, hnd⟩)
        · rw [List.Perm.length_eq hperm, List.length_cons, hlen, List.filter_append]
          have hone : [p].filter (fun x => !acc0.contains x) = [p] := by
            simp [hp_acc0]
          rw [hone]
          rw [List.length_append, List.length_singleton]
          omega
        · intro p2 hp2 hp2n
          rcases List.mem_append.mp hp2 with h1 | h1
          · have hidx2 := hidx p2 h1 hp2n
            have hp2acc : p2 ∈ acc := (hmem p2).mpr (Or.inr h1)
            have hlt : keyIndex acc p2 < keyIndex full p := by
              rw [hidx2, hj, hpre, keyIndex_append_of_mem _ h1]
              exact keyIndex_lt_length_iff.mpr h1
            rw [keyIndex_insertAt_of_lt hp2acc hlt, hidx2]
          · obtain rfl := List.mem_singleton.mp h1
            exact keyIndex_insertAt_self hin (by rw [hj]; exact hjlen)
        · rw [List.filter_append, List.filter_cons]
          have hcp : ¬ ((fun x => acc0.contains x) p = true) :=
            fun hc => hp_acc0 ((contains_iff _ _).mp hc)
          rw [if_neg hcp]
          rw [← List.filter_append, List.take_append_drop]
          exact hfil


/-- C2: each path present on only one side is inserted into the other side's
mapping at the index it occupies in the side where it exists (for a source-only
path its index in `source_data`, whose key order the first loop never changes; for
a target-only path its index in the updated `target_data` the second loop reads),
and the pre-existing entries of each mapping keep their relative order: filtering
the final key lists down to the original keys returns the original key lists. -/
theorem compare_insert_positions {src tgt s' t' : DataDict}
    (hnods : (dictKeys src).Nodup) (hnodt : (dictKeys tgt).Nodup)
    (h : HipFileComparator.compare src tgt = some (s', t')) :
    (∀ p, p ∈ dictKeys src → p ∉ dictKeys tgt →
        keyIndex (dictKeys t') p = keyIndex (dictKeys src) p) ∧
    ((dictKeys t').filter (fun x => (dictKeys tgt).contains x) = dictKeys tgt) ∧
    (∀ p, p ∈ dictKeys tgt → p ∉ dictKeys src →
        keyIndex (dictKeys s') p = keyIndex (dictKeys t') p) ∧
    ((dictKeys s').filter (fun x => (dictKeys src).contains x) = dictKeys src) := by
  simp only [HipFileComparator.compare] at h
  split at h
  · simp at h
  · rename_i s1 t1 hps
    have hks1 : dictKeys s1 = dictKeys src := (processSource_keys hps).1
    have hw1 : dictKeys t1 = weaveKeys (dictKeys src) (dictKeys src) (dictKeys tgt) :=
      processSource_weave hps
    obtain ⟨I1mem, I1nd, I1idx, I1fil⟩ :=
      weaveKeys_invariant hnods (dictKeys src) [] (dictKeys tgt) (dictKeys tgt)
        (by simp) (fun q => by simp) hnodt (by simp)
        (fun p hp => absurd hp (List.not_mem_nil p)) (filter_contains_self _)
    have hkt2 : dictKeys t' = dictKeys t1 := (processTarget_keys h).1
    have hw2 : dictKeys s' = weaveKeys (dictKeys t1) (dictKeys t1) (dictKeys s1) :=
      processTarget_weave h
    have hnd_t1 : (dictKeys t1).Nodup := by
      rw [hw1]
      exact I1nd
    obtain ⟨I2mem, I2nd, I2idx, I2fil⟩ :=
      weaveKeys_invariant hnd_t1 (dictKeys t1) [] (dictKeys s1) (dictKeys s1)
        (by simp) (fun q => by simp) (by rw [hks1]; exact hnods) (by simp)
        (fun p hp => absurd hp (List.not_mem_nil p)) (filter_contains_self _)
    refine ⟨?_, ?_, ?_, ?_⟩
    · intro p hp hpt
      rw [hkt2, hw1]
      exact I1idx p hp hpt
    · rw [hkt2, hw1]
      exact I1fil
    · intro p hp hpsrc
      have hp_t1 : p ∈ dictKeys t1 := by
        rw [hw1]
        exact (I1mem p).mpr (Or.inl hp)
      rw [hw2, hkt2]
      exact I2idx p hp_t1 (by rw [hks1]; exact hpsrc)
    · rw [hw2]
      rw [← hks1]
      exact I2fil

/-- Witness for C2 at `exSrc`, `exTgt`: the source-only path `/b` sits in the final
target at its source index, the target-only path `/p` sits in the final source at
its final-target index, and both original key orders survive filtering. -/
theorem compare_insert_positions_witness :
    keyIndex (dictKeys exT1) "/b" = keyIndex (dictKeys exSrc) "/b" ∧
    (dictKeys exT1).filter (fun x => (dictKeys exTgt).contains x) = dictKeys exTgt ∧
    keyIndex (dictKeys exS1) "/p" = keyIndex (dictKeys exT1) "/p" :=
  ⟨(compare_insert_positions (by decide) (by decide)
      (show HipFileComparator.compare exSrc exTgt = some (exS1, exT1) from by rfl)).1
      "/b" (by decide) (by decide),
   (compare_insert_positions (by decide) (by decide)
      (show HipFileComparator.compare exSrc exTgt = some (exS1, exT1) from by rfl)).2.1,
   (compare_insert_positions (by decide) (by decide)
      (show HipFileComparator.compare exSrc exTgt = some (exS1, exT1) from by rfl)).2.2.1
      "/p" (by decide) (by decide)⟩


/-! ### Running-time of `compare`: quadratic, not linear -/

theorem dictKeys_length (d : DataDict) : (dictKeys d).length = d.length :=
  List.length_map _ _

theorem insert_length (d : DataDict) (i : Nat) (k : String) (v : NodeData) :
    (ordered_dict_insert d i k v).length = d.length + 1 := by
  have h := congrArg List.length (List.take_append_drop i d)
  rw [List.length_append] at h
  simp only [ordered_dict_insert, List.length_append, List.length_cons]
  omega

theorem updateNode_length (d : DataDict) (k : String) (f : NodeData → NodeData) :
    (updateNode d k f).length = d.length :=
  List.length_map _ _

theorem totParms_updateNode {d : DataDict} {k : String} {f : NodeData → NodeData}
    (hf : ∀ nd, (f nd).parms.length = nd.parms.length) :
    totParms (updateNode d k f) = totParms d := by
  simp only [totParms, updateNode, List.map_map]
  congr 1
  apply List.map_congr_left
  intro x _
  by_cases h : x.1 = k <;> simp [h, hf]

theorem totParms_setNodeTag (d : DataDict) (k tg : String) :
    totParms (setNodeTag d k tg) = totParms d :=
  totParms_updateNode (fun _ => rfl)

theorem totParms_setParmTag (d : DataDict) (k n tg : String) :
    totParms (setParmTag d k n tg) = totParms d :=
  totParms_updateNode (fun _ => List.length_map _ _)

theorem compareParms_totParms {p : String} :
    ∀ {ns : List String} {s t s' t' : DataDict},
      HipFileComparator.compareParms p ns s t = some (s', t') →
      totParms s' = totParms s := by
  intro ns
  induction ns with
  | nil =>
      intro s t s' t' h
      simp only [HipFileComparator.compareParms] at h
      cases h
      rfl
  | cons n rest ih =>
      intro s t s' t' h
      simp only [HipFileComparator.compareParms] at h
      split at h
      · simp at h
      · split at h
        · simp at h
        · split at h
          · simp at h
          · split at h
            · simp at h
            · split at h
              · rw [ih h, totParms_setParmTag]
              · exact ih h

theorem lookup_parms_le_totParms {s : DataDict} {p : String} {sn : NodeData}
    (h : lookupNode s p = some sn) : sn.parms.length ≤ totParms s := by
  have hm : (p, sn) ∈ s := lookupNode_mem h
  have hm2 : sn.parms.length ∈ s.map (fun q => q.2.parms.length) :=
    List.mem_map_of_mem _ hm
  exact List.single_le_sum (fun x _ => Nat.zero_le x) _ hm2

theorem compareParms_length {p : String} :
    ∀ {ns : List String} {s t s' t' : DataDict},
      HipFileComparator.compareParms p ns s t = some (s', t') →
      s'.length = s.length ∧ t'.length = t.length := by
  intro ns s t s' t' h
  obtain ⟨h1, h2⟩ := compareParms_keys h
  constructor
  · rw [← dictKeys_length, ← dictKeys_length, h1]
  · rw [← dictKeys_length, ← dictKeys_length, h2]

theorem processSourceCost_le :
    ∀ (ks : List String) (s t : DataDict),
      HipFileComparator.processSourceCost ks s t ≤
        ks.length * (s.length + t.length + ks.length + totParms s + 3) := by
  intro ks
  induction ks with
  | nil =>
      intro s t
      simp [HipFileComparator.processSourceCost]
  | cons p rest ih =>
      intro s t
      have hlc : (p :: rest).length = rest.length + 1 := List.length_cons p rest
      rw [hlc]
      simp only [HipFileComparator.processSourceCost]
      split
      · calc 1 ≤ 1 * 3 := by omega
        _ ≤ (rest.length + 1) * (s.length + t.length + (rest.length + 1) + totParms s + 3) :=
            Nat.mul_le_mul (by omega) (by omega)
      · rename_i sn hlk
        have hpl : sn.parms.length ≤ totParms s := lookup_parms_le_totParms hlk
        split
        · split
          · calc 1 + sn.parms.length
                ≤ 1 * (s.length + t.length + (rest.length + 1) + totParms s + 3) := by omega
              _ ≤ (rest.length + 1) *
                  (s.length + t.length + (rest.length + 1) + totParms s + 3) :=
                  Nat.mul_le_mul_right _ (by omega)
          · rename_i s1 t1 hcp
            obtain ⟨hl1, hl2⟩ := compareParms_length hcp
            have htp : totParms s1 = totParms s := compareParms_totParms hcp
            have hrec := ih s1 t1
            rw [hl1, hl2, htp] at hrec
            calc 1 + sn.parms.length + HipFileComparator.processSourceCost rest s1 t1
                ≤ (s.length + t.length + (rest.length + 1) + totParms s + 3) +
                  rest.length * (s.length + t.length + (rest.length + 1) + totParms s + 3) := by
                  refine Nat.add_le_add (by omega) ?_
                  calc HipFileComparator.processSourceCost rest s1 t1
                      ≤ rest.length * (s.length + t.length + rest.length + totParms s + 3) :=
                        hrec
                    _ ≤ rest.length *
                        (s.length + t.length + (rest.length + 1) + totParms s + 3) :=
                        Nat.mul_le_mul_left _ (by omega)
              _ = (rest.length + 1) *
                  (s.length + t.length + (rest.length + 1) + totParms s + 3) := by ring
        · have hki : get_ordered_dict_key_index s p ≤ s.length := by
            rw [get_ordered_dict_key_index, ← dictKeys_length s]
            exact keyIndex_le_length _ _
          have hrec := ih (setNodeTag s p "deleted")
            (ordered_dict_insert t (get_ordered_dict_key_index s p) p
              { NodeData.ofName p with
                  parent_path := sn.parent_path, tag := some "deleted", name := "", icon := "" })
          rw [show (setNodeTag s p "deleted").length = s.length from updateNode_length _ _ _,
            insert_length, totParms_setNodeTag] at hrec
          calc 1 + (get_ordered_dict_key_index s p + 1) + (t.length + 1) +
                HipFileComparator.processSourceCost rest (setNodeTag s p "deleted")
                  (ordered_dict_insert t (get_ordered_dict_key_index s p) p
                    { NodeData.ofName p with
                        parent_path := sn.parent_path, tag := some "deleted",
                        name := "", icon := "" })
              ≤ (s.length + t.length + (rest.length + 1) + totParms s + 3) +
                rest.length * (s.length + t.length + (rest.length + 1) + totParms s + 3) := by
                refine Nat.add_le_add (by omega) ?_
                calc HipFileComparator.processSourceCost rest _ _
                    ≤ rest.length * (s.length + (t.length + 1) + rest.length + totParms s + 3) :=
                      hrec
                  _ = rest.length *
                      (s.length + t.length + (rest.length + 1) + totParms s + 3) := by ring
            _ = (rest.length + 1) *
                (s.length + t.length + (rest.length + 1) + totParms s + 3) := by ring


theorem processTargetCost_le :
    ∀ (ks : List String) (s t : DataDict),
      HipFileComparator.processTargetCost ks s t ≤
        ks.length * (s.length + t.length + ks.length + 3) := by
  intro ks
  induction ks with
  | nil =>
      intro s t
      simp [HipFileComparator.processTargetCost]
  | cons p rest ih =>
      intro s t
      rw [List.length_cons]
      simp only [HipFileComparator.processTargetCost]
      split
      · have hrec := ih s t
        calc 1 + HipFileComparator.processTargetCost rest s t
            ≤ (s.length + t.length + (rest.length + 1) + 3) +
              rest.length * (s.length + t.length + (rest.length + 1) + 3) := by
              refine Nat.add_le_add (by omega) ?_
              calc HipFileComparator.processTargetCost rest s t
                  ≤ rest.length * (s.length + t.length + rest.length + 3) := hrec
                _ ≤ rest.length * (s.length + t.length + (rest.length + 1) + 3) :=
                    Nat.mul_le_mul_left _ (by omega)
          _ = (rest.length + 1) * (s.length + t.length + (rest.length + 1) + 3) := by ring
      · split
        · calc 1 ≤ 1 * 3 := by omega
          _ ≤ (rest.length + 1) * (s.length + t.length + (rest.length + 1) + 3) :=
              Nat.mul_le_mul (by omega) (by omega)
        · rename_i tn htn
          have hki : get_ordered_dict_key_index t p ≤ t.length := by
            rw [get_ordered_dict_key_index, ← dictKeys_length t]
            exact keyIndex_le_length _ _
          have hrec := ih
            (ordered_dict_insert s (get_ordered_dict_key_index t p) p
              { NodeData.ofName p with
                  parent_path := tn.parent_path, tag := some "created", name := "", icon := "" })
            (setNodeTag t p "created")
          rw [insert_length,
            show (setNodeTag t p "created").length = t.length from updateNode_length _ _ _] at hrec
          calc 1 + (get_ordered_dict_key_index t p + 1) + (s.length + 1) +
                HipFileComparator.processTargetCost rest
                  (ordered_dict_insert s (get_ordered_dict_key_index t p) p
                    { NodeData.ofName p with
                        parent_path := tn.parent_path, tag := some "created",
                        name := "", icon := "" })
                  (setNodeTag t p "created")
              ≤ (s.length + t.length + (rest.length + 1) + 3) +
                rest.length * (s.length + t.length + (rest.length + 1) + 3) := by
                refine Nat.add_le_add (by omega) ?_
                calc HipFileComparator.processTargetCost rest _ _
                    ≤ rest.length * ((s.length + 1) + t.length + rest.length + 3) := hrec
                  _ = rest.length * (s.length + t.length + (rest.length + 1) + 3) := by ring
            _ = (rest.length + 1) * (s.length + t.length + (rest.length + 1) + 3) := by ring

theorem processSource_lengths :
    ∀ {ks : List String} {s t s' t' : DataDict},
      HipFileComparator.processSource ks s t = some (s', t') →
      s'.length = s.length ∧ t'.length ≤ t.length + ks.length := by
  intro ks
  induction ks with
  | nil =>
      intro s t s' t' h
      simp only [HipFileComparator.processSource] at h
      cases h
      exact ⟨rfl, by omega⟩
  | cons p rest ih =>
      intro s t s' t' h
      simp only [HipFileComparator.processSource] at h
      split at h
      · simp at h
      · split at h
        · split at h
          · simp at h
          · rename_i s1 t1 hcp
            obtain ⟨hl1, hl2⟩ := compareParms_length hcp
            obtain ⟨ih1, ih2⟩ := ih h
            rw [List.length_cons]
            exact ⟨by rw [ih1, hl1], by rw [hl2] at ih2; omega⟩
        · obtain ⟨ih1, ih2⟩ := ih h
          rw [show (setNodeTag s p "deleted").length = s.length from updateNode_length _ _ _] at ih1
          rw [insert_length] at ih2
          rw [List.length_cons]
          exact ⟨ih1, by omega⟩

/-- C6 (amended): the comparator is quadratic, not linear: its cost is bounded by a
constant multiple of the square of the input size (nodes of both sides plus source
parameters), the quadratic term coming from the linear `get_ordered_dict_key_index`
traversal and `ordered_dict_insert` rebuild performed for each placeholder. -/
theorem compare_cost_quadratic (src tgt : DataDict) :
    HipFileComparator.compareCost src tgt ≤
      6 * ((src.length + tgt.length + totParms src + 2) *
           (src.length + tgt.length + totParms src + 2)) := by
  have hN2 : 2 ≤ src.length + tgt.length + totParms src + 2 := by omega
  simp only [HipFileComparator.compareCost]
  have hA := processSourceCost_le (dictKeys src) src tgt
  rw [dictKeys_length] at hA
  have hA2 : HipFileComparator.processSourceCost (dictKeys src) src tgt ≤
      2 * ((src.length + tgt.length + totParms src + 2) *
           (src.length + tgt.length + totParms src + 2)) := by
    calc HipFileComparator.processSourceCost (dictKeys src) src tgt
        ≤ src.length * (src.length + tgt.length + src.length + totParms src + 3) := hA
      _ ≤ (src.length + tgt.length + totParms src + 2) *
          (2 * (src.length + tgt.length + totParms src + 2)) :=
          Nat.mul_le_mul (by omega) (by omega)
      _ = 2 * ((src.length + tgt.length + totParms src + 2) *
          (src.length + tgt.length + totParms src + 2)) := by ring
  split
  · omega
  · rename_i s1 t1 hps
    obtain ⟨hl1, hl2⟩ := processSource_lengths hps
    rw [dictKeys_length] at hl2
    have hB := processTargetCost_le (dictKeys t1) s1 t1
    rw [dictKeys_length, hl1] at hB
    have hB2 : HipFileComparator.processTargetCost (dictKeys t1) s1 t1 ≤
        4 * ((src.length + tgt.length + totParms src + 2) *
             (src.length + tgt.length + totParms src + 2)) := by
      calc HipFileComparator.processTargetCost (dictKeys t1) s1 t1
          ≤ t1.length * (src.length + t1.length + t1.length + 3) := hB
        _ ≤ (src.length + tgt.length + totParms src + 2) *
            (4 * (src.length + tgt.length + totParms src + 2)) :=
            Nat.mul_le_mul (by omega) (by omega)
        _ = 4 * ((src.length + tgt.length + totParms src + 2) *
            (src.length + tgt.length + totParms src + 2)) := by ring
    omega


theorem processSourceCost_ge :
    ∀ (ks : List String) (s t : DataDict) (m : Nat),
      (∀ p ∈ ks, p ∈ dictKeys s) → (∀ p ∈ ks, p ∉ dictKeys t) → ks.Nodup →
      m ≤ t.length →
      ks.length * (2 * m + ks.length + 3) ≤
        2 * HipFileComparator.processSourceCost ks s t := by
  intro ks
  induction ks with
  | nil =>
      intro s t m _ _ _ _
      simp [HipFileComparator.processSourceCost]
  | cons p rest ih =>
      intro s t m hins hnott hnd hm
      obtain ⟨hp_rest, hrest⟩ := List.nodup_cons.mp hnd
      have hp_s : p ∈ dictKeys s := hins p (List.mem_cons_self p rest)
      obtain ⟨sn, hsn⟩ := lookupNode_eq_some_of_mem hp_s
      have hp_t : p ∉ dictKeys t := hnott p (List.mem_cons_self p rest)
      have hhk : ¬ hasKey t p = true := fun hc => hp_t (hasKey_iff.mp hc)
      rw [List.length_cons]
      simp only [HipFileComparator.processSourceCost]
      split
      · rename_i heq
        rw [hsn] at heq
        cases heq
      · rename_i sn2 heq
        rw [if_neg hhk]
        have hrec := ih (setNodeTag s p "deleted")
          (ordered_dict_insert t (get_ordered_dict_key_index s p) p
            { NodeData.ofName p with
                parent_path := sn2.parent_path, tag := some "deleted", name := "", icon := "" })
          (m + 1)
          (by
            intro p2 hp2
            have e1 : dictKeys (setNodeTag s p "deleted") = dictKeys s := by
              simp only [setNodeTag]
              exact dictKeys_updateNode _ _ _
            rw [e1]
            exact hins p2 (List.mem_cons_of_mem _ hp2))
          (by
            intro p2 hp2
            rw [dictKeys_insert, mem_insertAt_iff]
            rintro (rfl | hc)
            · exact hp_rest hp2
            · exact hnott p2 (List.mem_cons_of_mem _ hp2) hc)
          hrest
          (by rw [insert_length]; omega)
        calc (rest.length + 1) * (2 * m + (rest.length + 1) + 3)
            ≤ (rest.length + 1) * (2 * m + (rest.length + 1) + 3) + 2 := Nat.le_add_right _ _
          _ = (2 * m + 6) + rest.length * (2 * (m + 1) + rest.length + 3) := by ring
          _ ≤ (2 * t.length + 2 * get_ordered_dict_key_index s p + 6) +
              2 * HipFileComparator.processSourceCost rest (setNodeTag s p "deleted")
                (ordered_dict_insert t (get_ordered_dict_key_index s p) p
                  { NodeData.ofName p with
                      parent_path := sn2.parent_path, tag := some "deleted",
                      name := "", icon := "" }) :=
              Nat.add_le_add (by omega) hrec
          _ = 2 * (1 + (get_ordered_dict_key_index s p + 1) + (t.length + 1) +
              HipFileComparator.processSourceCost rest (setNodeTag s p "deleted")
                (ordered_dict_insert t (get_ordered_dict_key_index s p) p
                  { NodeData.ofName p with
                      parent_path := sn2.parent_path, tag := some "deleted",
                      name := "", icon := "" })) := by ring

theorem akey_inj : Function.Injective akey := by
  intro i j h
  have h2 : (List.replicate i 'a').length = (List.replicate j 'a').length := by
    have h3 := congrArg String.data h
    simpa [akey] using h3
  simpa using h2

theorem fam_length (n : Nat) : (fam n).length = n := by
  simp [fam]

theorem fam_keys_nodup (n : Nat) : (dictKeys (fam n)).Nodup := by
  have hk : dictKeys (fam n) = (List.range n).map akey := by
    simp only [fam, dictKeys, List.map_map]
    rfl
  rw [hk]
  exact (List.nodup_range n).map akey_inj

/-- C6 is refuted: no constant `c` bounds the cost of `compare` by `c` times the
node count of the two inputs; the family `fam n` versus an empty target forces `n`
placeholder insertions whose index searches and rebuilds cost `Θ(n)` each. -/
theorem compare_cost_not_linear :
    ¬ ∃ c : Nat, ∀ src tgt : DataDict,
        HipFileComparator.compareCost src tgt ≤ c * (src.length + tgt.length) := by
  rintro ⟨c, hc⟩
  have h1 := hc (fam (2 * c + 1)) []
  have hge := processSourceCost_ge (dictKeys (fam (2 * c + 1))) (fam (2 * c + 1)) [] 0
      (fun p hp => hp) (fun p hp hcon => by simp [dictKeys] at hcon)
      (fam_keys_nodup _) (Nat.zero_le _)
  have hkl : (dictKeys (fam (2 * c + 1))).length = 2 * c + 1 := by
    rw [dictKeys_length, fam_length]
  rw [hkl] at hge
  have hcc : HipFileComparator.processSourceCost (dictKeys (fam (2 * c + 1)))
      (fam (2 * c + 1)) [] ≤ HipFileComparator.compareCost (fam (2 * c + 1)) [] := by
    simp only [HipFileComparator.compareCost]
    exact Nat.le_add_right _ _
  rw [fam_length, List.length_nil] at h1
  have hchain : (2 * c + 1) * (2 * 0 + (2 * c + 1) + 3) ≤ (2 * c + 1) * (2 * c) := by
    calc (2 * c + 1) * (2 * 0 + (2 * c + 1) + 3)
        ≤ 2 * HipFileComparator.processSourceCost (dictKeys (fam (2 * c + 1)))
            (fam (2 * c + 1)) [] := hge
      _ ≤ 2 * HipFileComparator.compareCost (fam (2 * c + 1)) [] :=
          Nat.mul_le_mul_left 2 hcc
      _ ≤ 2 * (c * (2 * c + 1 + 0)) := Nat.mul_le_mul_left 2 h1
      _ = (2 * c + 1) * (2 * c) := by ring
  have hfin := Nat.le_of_mul_le_mul_left hchain (show 0 < 2 * c + 1 by omega)
  omega

/-- Witness for the amended C6 at the concrete inputs `exSrc`, `exTgt`. -/
theorem compare_cost_quadratic_witness :
    HipFileComparator.compareCost exSrc exTgt ≤
      6 * ((exSrc.length + exTgt.length + totParms exSrc + 2) *
           (exSrc.length + exTgt.length + totParms exSrc + 2)) :=
  compare_cost_quadratic exSrc exTgt

end HipDiff
